import Mathlib

/-!
Verification development for the speaker diarization pipeline
(`scripts/speaker_diarize.py`).

The pipeline is shallowly embedded: audio samples, times and features are
exact real numbers (the idealized semantics of the floating point source),
machine integers are `Nat`/`Int`, and the seeded pseudo random sampler of
numpy is abstracted as an oracle stream of draws, since only the
determinism of the draws as a function of the seed matters to the claims
settled here, never their distribution.
-/

namespace SpeakerDiarize

/-! ## Numeric list helpers (embeddings of the numpy primitives used) -/

/-- Sum of squares of a vector, as in `np.sum(v * v)`. -/
def sumsq (v : List ℝ) : ℝ := (v.map fun a => a * a).sum

/-- Dot product of two vectors, as in `np.dot` / `x @ y`. -/
def dot (u v : List ℝ) : ℝ := (List.zipWith (fun a b => a * b) u v).sum

/-- Componentwise difference of two vectors. -/
def vsub (u v : List ℝ) : List ℝ := List.zipWith (fun a b => a - b) u v

/-- Euclidean norm `np.linalg.norm`. -/
noncomputable def normE (v : List ℝ) : ℝ := Real.sqrt (sumsq v)

/-- Columnwise mean of a nonempty list of equal length rows,
`np.mean(members, axis=0)`; the row length is read off the first row. -/
noncomputable def vecMean (ms : List (List ℝ)) : List ℝ :=
  (List.range (ms.headD []).length).map fun t =>
    (ms.map fun r => r.getD t 0).sum / ms.length

/-- First index attaining the minimum of `f` on `[0, k)`, as `np.argmin`
over a row of `k` entries (ties keep the first index). -/
noncomputable def argminR (f : ℕ → ℝ) (k : ℕ) : ℕ :=
  (List.range k).foldl (fun best j => if f j < f best then j else best) 0

/-- First index attaining the maximum of `f` on `[0, n)`, as `np.argmax`. -/
noncomputable def argmaxR (f : ℕ → ℝ) (n : ℕ) : ℕ :=
  (List.range n).foldl (fun best j => if f best < f j then j else best) 0

/-- Minimum of `f` over `[0, k)` (`np.min` over a row; 0 when `k = 0`,
a case the source never reaches). -/
noncomputable def minR (f : ℕ → ℝ) (k : ℕ) : ℝ :=
  (List.range k).foldl (fun acc j => min acc (f j)) (f 0)

/-- Truncation toward zero, the semantics of python `int()` on a float. -/
noncomputable def pyInt (x : ℝ) : ℤ := if x < 0 then -⌊-x⌋ else ⌊x⌋

/-! ## Framing (`frame_audio`) -/

/-- Shallow embedding of `frame_audio`: split a signal into overlapping
frames of length `fs` with hop `hs`.  An empty signal yields no frames; a
signal shorter than one frame is right padded with zeros; otherwise frame
`f` reads the samples at indices `f * hs + j` for `j < fs`, exactly the
strided view the source builds. -/
def frame_audio (xs : List ℝ) (fs hs : ℕ) : List (List ℝ) :=
  if xs.length = 0 then []
  else
    let padded := if xs.length < fs then xs ++ List.replicate (fs - xs.length) 0 else xs
    let count := 1 + (padded.length - fs) / hs
    (List.range count).map fun f => (List.range fs).map fun j => padded.getD (f * hs + j) 0

/-! ## Hole filling in the speech activity mask -/

/-- The flip condition of one iteration of the hole filling block of
`detect_speech_regions`: frame `i` is inactive and the `hole` frames
before it and the `hole` frames after it are all active, everything read
from the original mask. -/
def flipCond (mask : List Bool) (hole i : ℕ) : Prop :=
  mask.getD i false = false
    ∧ ((mask.drop (i - hole)).take hole).all id
    ∧ ((mask.drop (i + 1)).take hole).all id

instance (mask : List Bool) (hole i : ℕ) : Decidable (flipCond mask hole i) := by
  unfold flipCond; infer_instance

/-- One iteration of the hole filling loop: flip index `i` in the copy
`fixed` when the flip condition holds on the original mask. -/
def fillStep (mask : List Bool) (hole : ℕ) (fixed : List Bool) (i : ℕ) : List Bool :=
  if flipCond mask hole i then fixed.set i true else fixed

/-- Shallow embedding of the hole filling block of `detect_speech_regions`
(the guarded loop over `range(hole, size - hole)`): reads are from the
original mask, writes go to the copy being folded, exactly as the source
reads `speech_mask` and writes `fixed`. -/
def fill_holes (mask : List Bool) (hole : ℕ) : List Bool :=
  if 0 < hole ∧ 2 * hole < mask.length then
    (List.range' hole (mask.length - 2 * hole)).foldl (fillStep mask hole) mask
  else mask

/-! ## Contiguous active runs of a mask -/

/-- Worker for `maskRuns`: `i` is the index of the next mask entry, `st`
the start index of the active run currently open (if any), mirroring the
`start` variable of the enumeration loop in `detect_speech_regions`. -/
def maskRunsAux : ℕ → Option ℕ → List Bool → List (ℕ × ℕ)
  | _, none, [] => []
  | i, some s, [] => [(s, i - 1)]
  | i, none, true :: t => maskRunsAux (i + 1) (some i) t
  | i, none, false :: t => maskRunsAux (i + 1) none t
  | i, some s, true :: t => maskRunsAux (i + 1) (some s) t
  | i, some s, false :: t => (s, i - 1) :: maskRunsAux (i + 1) none t

/-- Maximal runs of active frames of a mask as inclusive index pairs,
as extracted by the enumeration loop of `detect_speech_regions`. -/
def maskRuns (mask : List Bool) : List (ℕ × ℕ) := maskRunsAux 0 none mask

/-! ## Merging raw speech intervals (`detect_speech_regions`, last block) -/

/-- One step of the interval merge: drop intervals shorter than 0.65 s,
merge an interval into the previous one when the gap is at most 0.35 s.
The accumulator holds the merged list in reverse (head = latest). -/
noncomputable def mergeStep (acc : List (ℝ × ℝ)) (r : ℝ × ℝ) : List (ℝ × ℝ) :=
  if r.2 - r.1 < 0.65 then acc
  else
    match acc with
    | [] => [r]
    | p :: rest => if r.1 - p.2 ≤ 0.35 then (p.1, r.2) :: rest else r :: p :: rest

/-- Shallow embedding of the merge and minimum duration block at the end
of `detect_speech_regions`. -/
noncomputable def mergeRegions (rs : List (ℝ × ℝ)) : List (ℝ × ℝ) :=
  (rs.foldl mergeStep []).reverse

/-! ## Percentile and the speech activity detector -/

/-- Shallow embedding of `np.percentile(values, q)` with the default
linear interpolation between order statistics. -/
noncomputable def percentile (values : List ℝ) (q : ℝ) : ℝ :=
  let sorted := @List.insertionSort ℝ (fun a b => a ≤ b) (fun a b => Real.decidableLE a b) values
  let pos : ℝ := q / 100 * ((values.length : ℝ) - 1)
  let lo : ℕ := (⌊pos⌋).toNat
  let vlo := sorted.getD lo 0
  vlo + (pos - lo) * (sorted.getD (lo + 1) vlo - vlo)

/-- Shallow embedding of `detect_speech_regions`: frame the signal
(30 ms length, 10 ms hop), compute per frame RMS energy, threshold at
`max(2.2 * noise_floor, 0.015)` with the noise floor at the 20th
percentile, fill short holes, extract contiguous active runs as time
intervals, then drop short intervals and merge across small gaps. -/
noncomputable def detect_speech_regions (samples : List ℝ) (sr : ℕ) : List (ℝ × ℝ) :=
  let fs : ℕ := ((0.03 : ℚ) * sr).floor.toNat
  let hs : ℕ := ((0.01 : ℚ) * sr).floor.toNat
  let frames := frame_audio samples fs hs
  if frames.length = 0 then []
  else
    let rmsL := frames.map fun fr => Real.sqrt (sumsq fr / (fr.length : ℝ) + 1e-10)
    let noise_floor := percentile rmsL 20
    let threshold := max (2.2 * noise_floor) 0.015
    let mask := rmsL.map fun r => @decide (threshold < r) (Real.decidableLT threshold r)
    let hole : ℕ := ((0.12 : ℚ) / ((hs : ℚ) / (sr : ℚ))).floor.toNat
    let mask2 := fill_holes mask hole
    let regions := (maskRuns mask2).map fun p =>
      (((p.1 * hs : ℕ) : ℝ) / (sr : ℝ), ((p.2 * hs : ℕ) : ℝ) / (sr : ℝ) + (fs : ℝ) / (sr : ℝ))
    mergeRegions regions

/-! ## Mel filterbank and DCT basis -/

/-- Shallow embedding of `hz_to_mel`. -/
noncomputable def hz_to_mel (hz : ℝ) : ℝ := 2595 * Real.logb 10 (1 + hz / 700)

/-- Shallow embedding of `mel_to_hz`; the real power is `Real.rpow`. -/
noncomputable def mel_to_hz (mel : ℝ) : ℝ := 700 * ((10 : ℝ) ^ (mel / 2595) - 1)

/-- Point `i` of `np.linspace(mel_min, mel_max, n_mels + 2)` where the
band edges are `f_min` and `min(f_max, sr / 2 - 1)`, as in
`build_mel_filterbank`. -/
noncomputable def melPoint (sr n_mels : ℕ) (f_min f_max : ℝ) (i : ℕ) : ℝ :=
  hz_to_mel f_min +
    i * (hz_to_mel (min f_max ((sr : ℝ) / 2 - 1)) - hz_to_mel f_min) / ((n_mels : ℝ) + 1)

/-- FFT bin of mel point `i`: `np.floor((n_fft + 1) * hz / sr)` clipped to
`[0, n_fft // 2]`. -/
noncomputable def fbBin (sr n_fft n_mels : ℕ) (f_min f_max : ℝ) (i : ℕ) : ℤ :=
  min (max ⌊((n_fft : ℝ) + 1) * mel_to_hz (melPoint sr n_mels f_min f_max i) / (sr : ℝ)⌋ 0)
    ((n_fft / 2 : ℕ) : ℤ)

/-- Left edge of triangular filter `m` (0 based), `bins[m - 1]` of the
source loop whose `m` runs from 1. -/
noncomputable def fbLeft (sr n_fft n_mels : ℕ) (f_min f_max : ℝ) (m : ℕ) : ℤ :=
  fbBin sr n_fft n_mels f_min f_max m

/-- Center of filter `m` after the zero width bump `center = left + 1`. -/
noncomputable def fbCenter (sr n_fft n_mels : ℕ) (f_min f_max : ℝ) (m : ℕ) : ℤ :=
  max (fbBin sr n_fft n_mels f_min f_max (m + 1)) (fbLeft sr n_fft n_mels f_min f_max m + 1)

/-- Right edge of filter `m` after the zero width bump `right = center + 1`
and the final clamp `right = min(right, n_fft // 2)`. -/
noncomputable def fbRight (sr n_fft n_mels : ℕ) (f_min f_max : ℝ) (m : ℕ) : ℤ :=
  min (max (fbBin sr n_fft n_mels f_min f_max (m + 2))
        (fbCenter sr n_fft n_mels f_min f_max m + 1))
    ((n_fft / 2 : ℕ) : ℤ)

/-- Shallow embedding of `build_mel_filterbank` as an entry function: the
two fill loops write the rising ramp on `[left, center)` and the falling
ramp on `[center, right)` of each of the `n_mels` rows, everything else
stays at the zero the matrix was created with. -/
noncomputable def build_mel_filterbank (sr n_fft n_mels : ℕ) (f_min f_max : ℝ)
    (m k : ℕ) : ℝ :=
  if m < n_mels then
    let left := fbLeft sr n_fft n_mels f_min f_max m
    let center := fbCenter sr n_fft n_mels f_min f_max m
    let right := fbRight sr n_fft n_mels f_min f_max m
    if left ≤ (k : ℤ) ∧ (k : ℤ) < center then
      ((k : ℝ) - (left : ℝ)) / ((center : ℝ) - (left : ℝ))
    else if center ≤ (k : ℤ) ∧ (k : ℤ) < right then
      ((right : ℝ) - (k : ℝ)) / ((right : ℝ) - (center : ℝ))
    else 0
  else 0

/-- Shallow embedding of `build_dct_matrix` (type II DCT basis; row 0 uses
the normalization `sqrt(1 / n_mels)`, the others `sqrt(2 / n_mels)`). -/
noncomputable def build_dct_matrix (n_mels n_mfcc : ℕ) (kk m : ℕ) : ℝ :=
  if kk = 0 ∧ m < n_mels then Real.sqrt (1 / (n_mels : ℝ))
  else if kk < n_mfcc ∧ m < n_mels then
    Real.sqrt (2 / (n_mels : ℝ)) *
      Real.cos (Real.pi * kk * (2 * (m : ℝ) + 1) / (2 * (n_mels : ℝ)))
  else 0

/-! ## Feature extraction (`extract_embedding`) -/

/-- Entry `j` of `np.hanning(M)`. -/
noncomputable def hanning (M j : ℕ) : ℝ :=
  0.5 - 0.5 * Real.cos (2 * Real.pi * j / ((M : ℝ) - 1))

/-- Bin `k` of `np.fft.rfft(row, n)` (row zero padded or truncated to
`n` points). -/
noncomputable def rfftBin (row : List ℝ) (n k : ℕ) : ℂ :=
  ∑ j ∈ Finset.range n,
    (row.getD j 0 : ℂ) * Complex.exp (-(2 * (Real.pi : ℂ) * Complex.I * j * k) / n)

/-- Power spectrum bin of a windowed frame, `abs(rfft)^2 / n_fft` with
`n_fft = 512`. -/
noncomputable def powerSpec (fr : List ℝ) (k : ℕ) : ℝ :=
  Complex.abs (rfftBin fr 512 k) ^ 2 / 512

/-- Row of `np.maximum(power @ mel_fb.T, 1e-10)` for one frame: the mel
band energy floored at `1e-10` before the logarithm. -/
noncomputable def melEnergy (mel_fb : ℕ → ℕ → ℝ) (fr : List ℝ) (m : ℕ) : ℝ :=
  max (∑ k ∈ Finset.range 257, powerSpec fr k * mel_fb m k) 1e-10

/-- Cepstral coefficient `c` of one frame, `log_mel @ dct.T`. -/
noncomputable def mfccOf (mel_fb dct : ℕ → ℕ → ℝ) (fr : List ℝ) (c : ℕ) : ℝ :=
  ∑ m ∈ Finset.range 24, Real.log (melEnergy mel_fb fr m) * dct c m

/-- Mean of `g` over frame indices `[0, F)` (`np.mean` along axis 0). -/
noncomputable def colMean (g : ℕ → ℝ) (F : ℕ) : ℝ := (∑ f ∈ Finset.range F, g f) / F

/-- Population standard deviation of `g` over `[0, F)` (`np.std`). -/
noncomputable def colStd (g : ℕ → ℝ) (F : ℕ) : ℝ :=
  Real.sqrt ((∑ f ∈ Finset.range F, (g f - colMean g F) ^ 2) / F)

/-- Spectral centroid of one windowed frame: energy weighted mean of the
`np.fft.rfftfreq(512, 1 / sr)` frequencies, with the `1e-10` guard. -/
noncomputable def centroidOf (sr : ℕ) (fr : List ℝ) : ℝ :=
  (∑ k ∈ Finset.range 257, Complex.abs (rfftBin fr 512 k) * ((k : ℝ) * sr / 512)) /
    ((∑ k ∈ Finset.range 257, Complex.abs (rfftBin fr 512 k)) + 1e-10)

/-- Start sample of the slice `audio[s:e]` of `extract_embedding`:
`max(0, int(start_s * sr))`. -/
noncomputable def chunkStart (sr : ℕ) (start_s : ℝ) : ℕ := (max 0 (pyInt (start_s * sr))).toNat

/-- Stop sample of the slice: `min(audio.size, int(end_s * sr))`, with the
python semantics of a negative stop index counting from the end. -/
noncomputable def chunkStop (len sr : ℕ) (end_s : ℝ) : ℕ :=
  let eRaw : ℤ := min (len : ℤ) (pyInt (end_s * sr))
  (if eRaw < 0 then max 0 ((len : ℤ) + eRaw) else eRaw).toNat

/-- The sliced sample range `audio[s:e]` of `extract_embedding`. -/
noncomputable def chunkOf (samples : List ℝ) (sr : ℕ) (start_s end_s : ℝ) : List ℝ :=
  (samples.take (chunkStop samples.length sr end_s)).drop (chunkStart sr start_s)

/-- Hann windowed frames of a chunk (25 ms length, 10 ms hop). -/
noncomputable def embedFrames (chunk : List ℝ) (sr : ℕ) : List (List ℝ) :=
  let fs := ((0.025 : ℚ) * sr).floor.toNat
  (frame_audio chunk fs (((0.01 : ℚ) * sr).floor.toNat)).map fun fr =>
    (List.range fs).map fun j => fr.getD j 0 * hanning fs j

/-- The 30 entry feature vector of `extract_embedding` before the final
normalization: 13 means and 13 standard deviations of the mean subtracted
cepstral coefficients, then normalized centroid mean and deviation, the
interval duration, and the mean frame RMS. -/
noncomputable def embedFeature (samples : List ℝ) (sr : ℕ) (start_s end_s : ℝ)
    (mel_fb dct : ℕ → ℕ → ℝ) : List ℝ :=
  let frames := embedFrames (chunkOf samples sr start_s end_s) sr
  let F := frames.length
  let mf : ℕ → ℕ → ℝ := fun f c => mfccOf mel_fb dct (frames.getD f []) c
  let centered : ℕ → ℕ → ℝ := fun f c => mf f c - colMean (fun g => mf g c) F
  let cent : ℕ → ℝ := fun f => centroidOf sr (frames.getD f [])
  ((List.range 13).map fun c => colMean (fun f => centered f c) F) ++
    ((List.range 13).map fun c => colStd (fun f => centered f c) F) ++
    [colMean cent F / 4000, colStd cent F / 2000, end_s - start_s,
      (frames.map fun fr => Real.sqrt (sumsq fr / (fr.length : ℝ))).sum / F]

/-- Shallow embedding of `extract_embedding`: zero vector when the sliced
range is shorter than 0.4 s or yields fewer than 2 frames, otherwise the
feature vector, L2 normalized when its norm exceeds `1e-8`. -/
noncomputable def extract_embedding (samples : List ℝ) (sr : ℕ) (start_s end_s : ℝ)
    (mel_fb dct : ℕ → ℕ → ℝ) : List ℝ :=
  let chunk := chunkOf samples sr start_s end_s
  if chunk.length < ((0.4 : ℚ) * sr).floor.toNat then List.replicate 30 0
  else if (embedFrames chunk sr).length < 2 then List.replicate 30 0
  else
    let feature := embedFeature samples sr start_s end_s mel_fb dct
    let norm := normE feature
    if 1e-8 < norm then feature.map fun a => a / norm else feature

/-! ## K-means -/

/-- Entry `(i, j)` of the distance block the source slices out of
`pairwise_distances(np.vstack([x, centers]))`:
`sqrt(max(|u|^2 + |v|^2 - 2 u.v, 0))`. -/
noncomputable def pdist (u v : List ℝ) : ℝ :=
  Real.sqrt (max (sumsq u + sumsq v - 2 * dot u v) 0)

/-- Shallow embedding of `kmeans_pp_init` with the seeded sampler
abstracted: the source draws the index of center `c` from the rng seeded
generator, uniformly for the first center and by the squared distance
weighting of k-means++ (or its degenerate uniform fallbacks) afterwards.
The PCG64 sampler is not exactly representable, so draw `c` is taken from
the oracle stream `r` and reduced mod `n`; every claim settled here
depends only on the draws being a function of the seed, not on their
distribution. -/
def kmeans_pp_init (r : ℕ → ℕ) (x : List (List ℝ)) (k : ℕ) : List (List ℝ) :=
  (List.range k).map fun c => x.getD (r c % x.length) []

/-- Lloyd iteration of `run_kmeans` with fuel: assign points to nearest
centers (first minimal index as `np.argmin`), stop when the assignment is
unchanged, else recompute each center as the mean of its members, or
reseed an empty cluster to the point farthest from any existing center.
The distance matrix is the one computed at the top of the iteration, as
in the source. -/
noncomputable def kmeansLoop (x : List (List ℝ)) (k : ℕ) :
    ℕ → List ℕ → List (List ℝ) → List ℕ × List (List ℝ)
  | 0, labels, centers => (labels, centers)
  | fuel + 1, labels, centers =>
    let dist : ℕ → ℕ → ℝ := fun i j => pdist (x.getD i []) (centers.getD j [])
    let newLabels := (List.range x.length).map fun i => argminR (dist i) k
    if newLabels = labels then (labels, centers)
    else
      let centers' := (List.range k).map fun j =>
        let members := ((x.zip newLabels).filter fun p => p.2 = j).map Prod.fst
        if members.isEmpty then x.getD (argmaxR (fun i => minR (dist i) k) x.length) []
        else vecMean members
      kmeansLoop x k fuel newLabels centers'

/-- Shallow embedding of `run_kmeans` (max_iter = 60): k-means++ style
seeded initialization, Lloyd iteration, then the inertia of the final
assignment, the sum of squared distances to assigned centers. -/
noncomputable def run_kmeans (r : ℕ → ℕ) (x : List (List ℝ)) (k : ℕ) :
    List ℕ × List (List ℝ) × ℝ :=
  let centers0 := kmeans_pp_init r x k
  let lc := kmeansLoop x k 60 (List.replicate x.length 0) centers0
  let inertia := ∑ i ∈ Finset.range x.length,
    normE (vsub (x.getD i []) (lc.2.getD (lc.1.getD i 0) [])) ^ 2
  (lc.1, lc.2, inertia)

/-! ## Silhouette score -/

/-- One iteration of the scores loop of `silhouette_score` for point
`i`: `a` is the summed distance over the own cluster mask divided by
`count - 1` (0 for a singleton cluster, since `d[i, i] = 0` is included
in the mask sum), `b` the minimum over the other clusters of the mean
distance to that cluster (`none` standing for the `float inf` start
value when no other cluster exists), and the score `(b - a) / max(a, b)`
guarded to 0 when the denominator is not finite or at most `1e-12`.
The source also skips a candidate cluster whose mask is empty; that skip
is dead code: the mask of a label drawn from `np.unique(labels)` always
has a member when `labels` has the length of `x` (the shape the source
requires to index the distance matrix at all), so it is not modelled. -/
noncomputable def silhouettePoint (x : List (List ℝ)) (labels : List ℕ) (i : ℕ) : ℝ :=
  let n := x.length
  let d : ℕ → ℕ → ℝ := fun i j => pdist (x.getD i []) (x.getD j [])
  let li := labels.getD i 0
  let sameCount := ((Finset.range n).filter fun j => labels.getD j 0 = li).card
  let a : ℝ :=
    if sameCount ≤ 1 then 0
    else (∑ j ∈ (Finset.range n).filter fun j => labels.getD j 0 = li, d i j) /
      ((sameCount : ℝ) - 1)
  let bs := (labels.dedup.filter fun c => c ≠ li).map fun c =>
    (∑ j ∈ (Finset.range n).filter fun j => labels.getD j 0 = c, d i j) /
      (((Finset.range n).filter fun j => labels.getD j 0 = c).card : ℝ)
  match bs.min? with
  | none => 0
  | some b => if max a b ≤ 1e-12 then 0 else (b - a) / max a b

/-- Shallow embedding of `silhouette_score`: `-1` outside the guard
(fewer than 2 or at least `n` distinct labels), else the mean over
points of the per point score `silhouettePoint`. -/
noncomputable def silhouette_score (x : List (List ℝ)) (labels : List ℕ) : ℝ :=
  let n := x.length
  let uniq := labels.dedup
  if uniq.length ≤ 1 ∨ n ≤ uniq.length then -1
  else
    let scores := (List.range n).map (silhouettePoint x labels)
    if scores.isEmpty then -1 else scores.sum / (scores.length : ℝ)

/-! ## Speaker count selection -/

/-- One seed of the lowest inertia selection `run_kmeans` is wrapped in by
`choose_speaker_count` and `diarize` (seeds 7, 17, 31): keep the
assignment with strictly smaller inertia. -/
noncomputable def kmeansBestStep (rngOf : ℕ → ℕ → ℕ) (x : List (List ℝ)) (k : ℕ)
    (acc : Option (List ℕ × ℝ)) (seed : ℕ) : Option (List ℕ × ℝ) :=
  let out := run_kmeans (rngOf seed) x k
  match acc with
  | none => some (out.1, out.2.2)
  | some best => if out.2.2 < best.2 then some (out.1, out.2.2) else some best

/-- Best of the three seeded restarts (seeds 7, 17, 31) by inertia. -/
noncomputable def kmeansBest (rngOf : ℕ → ℕ → ℕ) (x : List (List ℝ)) (k : ℕ) :
    Option (List ℕ × ℝ) :=
  [7, 17, 31].foldl (kmeansBestStep rngOf x k) none

/-- One candidate `k` of `choose_speaker_count`: its best of three
restarts is scored by silhouette minus the complexity penalty
`0.02 * (k - 1)` and kept when strictly better. -/
noncomputable def chooseStep (rngOf : ℕ → ℕ → ℕ) (x : List (List ℝ))
    (acc : ℕ × ℝ) (k : ℕ) : ℕ × ℝ :=
  match kmeansBest rngOf x k with
  | none => acc
  | some best =>
    let sil := silhouette_score x best.1 - 0.02 * ((k : ℝ) - 1)
    if acc.2 < sil then (k, sil) else acc

/-- Shallow embedding of `choose_speaker_count`. -/
noncomputable def choose_speaker_count (rngOf : ℕ → ℕ → ℕ) (x : List (List ℝ))
    (min_speakers max_speakers : ℕ) : ℕ :=
  let n := x.length
  let max_k := min max_speakers n
  let min_k := min min_speakers max_k
  if n < 3 ∨ max_k ≤ 1 then 1
  else
    let ks := List.range' (max 2 min_k) (max_k + 1 - max 2 min_k)
    let best := ks.foldl (chooseStep rngOf x) (1, -1)
    if best.2 < 0.10 then 1 else max 1 best.1

/-! ## Segment assembly and the full pipeline -/

/-- Output unit of the pipeline.  `stop` is the `end` field of the source
(a reserved word here); `speaker` is the participant number `n` of the
display name `Participant n`, which determines the name injectively. -/
structure Segment where
  start : ℝ
  stop : ℝ
  speaker : ℕ

/-- Result object of `diarize`. -/
structure DiarizeResult where
  segments : List Segment
  num_speakers : ℕ

/-- One region of the final merge loop of `diarize`: extend the previous
segment when the speaker matches and the gap is at most 0.45 s, using
`max` for the new end, else open a new segment.  The accumulator holds
the output in reverse (head = latest segment). -/
noncomputable def segStep (acc : List Segment) (r : Segment) : List Segment :=
  match acc with
  | [] => [r]
  | p :: rest =>
    if p.speaker = r.speaker ∧ r.start - p.stop ≤ 0.45 then
      ⟨p.start, max p.stop r.stop, p.speaker⟩ :: rest
    else r :: p :: rest

/-- The final merge loop of `diarize`. -/
noncomputable def segMerge (rs : List Segment) : List Segment := (rs.foldl segStep []).reverse

/-- Speech intervals paired with their cluster labels by index, as the
`SpeechRegion` list of `diarize` after `r.label = int(labels[i])`. -/
noncomputable def labeledRegions (speech : List (ℝ × ℝ)) (labels : List ℕ) : List Segment :=
  (List.range speech.length).map fun i =>
    ⟨(speech.getD i (0, 0)).1, (speech.getD i (0, 0)).2, labels.getD i 0⟩

/-- Start time of the first region carrying label `l`
(`label_first_seen.setdefault`). -/
noncomputable def firstSeen (regions : List Segment) (l : ℕ) : ℝ :=
  match regions.find? fun r => r.speaker = l with
  | some r => r.start
  | none => 0

/-- The distinct labels (dict keys in insertion order) sorted by first
appearance time, the `ordered` list of `diarize`. -/
noncomputable def orderedLabels (regions : List Segment) : List ℕ :=
  @List.insertionSort ℕ (fun a b => firstSeen regions a ≤ firstSeen regions b)
    (fun x y => Real.decidableLE (firstSeen regions x) (firstSeen regions y))
    ((regions.map Segment.speaker).dedup)

/-- The cluster assignment block of `diarize`: all zeros when the chosen
`k` is 1, else the lowest inertia assignment of the three seeded
restarts, with the all zero fallback of `best_labels is None`. -/
noncomputable def diarizeLabels (rngOf : ℕ → ℕ → ℕ) (x : List (List ℝ))
    (min_speakers max_speakers : ℕ) : List ℕ :=
  let k := choose_speaker_count rngOf x min_speakers max_speakers
  if k ≤ 1 then List.replicate x.length 0
  else
    match kmeansBest rngOf x k with
    | some best => best.1
    | none => List.replicate x.length 0

/-- The label stabilization and segment merge block of `diarize`: name
labels by first appearance and merge adjacent same speaker regions. -/
noncomputable def diarizeAssemble (speech : List (ℝ × ℝ)) (labels : List ℕ) : DiarizeResult :=
  let regions := labeledRegions speech labels
  let ordered := orderedLabels regions
  let named := regions.map fun r => Segment.mk r.start r.stop (ordered.indexOf r.speaker + 1)
  ⟨segMerge named, ordered.length⟩

/-- Shallow embedding of `diarize`.  The external audio decoder is out of
scope (spec section 6), so the function consumes the decoded mono 16 kHz
SampleBuffer directly; `rngOf seed` is the oracle draw stream of the
numpy generator seeded with `seed` (see `kmeans_pp_init`). -/
noncomputable def diarize (rngOf : ℕ → ℕ → ℕ) (samples : List ℝ)
    (min_speakers max_speakers : ℕ) : DiarizeResult :=
  if samples.length = 0 then ⟨[], 0⟩
  else
    let speech := detect_speech_regions samples 16000
    if speech.isEmpty then ⟨[], 0⟩
    else
      let mel_fb := build_mel_filterbank 16000 512 24 80 7600
      let dct := build_dct_matrix 24 13
      let x := speech.map fun p => extract_embedding samples 16000 p.1 p.2 mel_fb dct
      if x.isEmpty then ⟨[], 0⟩
      else diarizeAssemble speech (diarizeLabels rngOf x min_speakers max_speakers)

/-! ## Hole filling: characterization (claim C5) -/

lemma fillStep_length (mask : List Bool) (hole : ℕ) (acc : List Bool) (i : ℕ) :
    (fillStep mask hole acc i).length = acc.length := by
  unfold fillStep; split <;> simp

lemma fillFold_length (mask : List Bool) (hole : ℕ) :
    ∀ (is : List ℕ) (acc : List Bool),
      (is.foldl (fillStep mask hole) acc).length = acc.length := by
  intro is
  induction is with
  | nil => intro acc; rfl
  | cons i is ih => intro acc; simp only [List.foldl_cons]; rw [ih, fillStep_length]

lemma fillStep_getD (mask : List Bool) (hole : ℕ) (acc : List Bool) (i j : ℕ) :
    (fillStep mask hole acc i).getD j false =
      if i = j ∧ flipCond mask hole i ∧ i < acc.length then true
      else acc.getD j false := by
  unfold fillStep
  split
  · rename_i hc
    rw [List.getD_eq_getElem?_getD, List.getElem?_set]
    by_cases hij : i = j
    · subst hij
      by_cases hlt : i < acc.length
      · simp [hlt, hc]
      · simp [hlt, hc, List.getD_eq_getElem?_getD,
          List.getElem?_eq_none (le_of_not_lt hlt)]
    · simp [hij, List.getD_eq_getElem?_getD]
  · rename_i hc
    simp [hc]

lemma fillFold_getD (mask : List Bool) (hole : ℕ) :
    ∀ (is : List ℕ) (acc : List Bool) (j : ℕ),
      (is.foldl (fillStep mask hole) acc).getD j false =
        if j ∈ is ∧ flipCond mask hole j ∧ j < acc.length then true
        else acc.getD j false := by
  intro is
  induction is with
  | nil => intro acc j; simp
  | cons i is ih =>
    intro acc j
    simp only [List.foldl_cons]
    rw [ih, fillStep_length, fillStep_getD]
    simp only [List.mem_cons]
    by_cases hij : j = i
    · subst hij
      by_cases hc : flipCond mask hole j <;> by_cases hlt : j < acc.length <;>
        simp [hc, hlt]
    · have hij' : ¬ i = j := fun h => hij h.symm
      by_cases hm : j ∈ is <;> simp [hm, hij, hij']

/-- Claim C5 (amended): an output frame of the hole filling step is
active exactly when it was already active in the input mask, or when it
is an inactive frame at position `j` with `hole ≤ j` and
`j + hole < size` in a mask of size greater than `2 * hole` whose `hole`
frames before `j` and `hole` frames after `j` are all active (the flip
condition, which can only hold for an isolated single frame hole: any
longer inactive run puts an inactive frame inside one of the two
windows).  With the pipeline framing, `hole` frames span 0.12 s. -/
theorem fill_holes_spec (mask : List Bool) (hole j : ℕ) :
    (fill_holes mask hole).length = mask.length ∧
      ((fill_holes mask hole).getD j false = true ↔
        mask.getD j false = true ∨
          (0 < hole ∧ 2 * hole < mask.length ∧ hole ≤ j ∧ j + hole < mask.length ∧
            flipCond mask hole j)) := by
  constructor
  · unfold fill_holes
    split
    · rw [fillFold_length]
    · rfl
  · unfold fill_holes
    split
    · rename_i hg
      rw [fillFold_getD]
      simp only [List.mem_range'_1]
      by_cases hA : (hole ≤ j ∧ j < hole + (mask.length - 2 * hole)) ∧
          flipCond mask hole j ∧ j < mask.length
      · rw [if_pos hA]
        constructor
        · intro _
          obtain ⟨⟨h1, h2⟩, hf, hlt⟩ := hA
          exact Or.inr ⟨hg.1, hg.2, h1, by omega, hf⟩
        · intro _; rfl
      · rw [if_neg hA]
        constructor
        · intro h; exact Or.inl h
        · rintro (h | ⟨hp, hl, h1, h2, hf⟩)
          · exact h
          · exact absurd ⟨⟨h1, by omega⟩, hf, by omega⟩ hA
    · rename_i hg
      constructor
      · intro h; exact Or.inl h
      · rintro (h | ⟨hp, hl, _⟩)
        · exact h
        · exact absurd ⟨hp, hl⟩ hg

/-- A 26 frame mask: 12 active frames, a 2 frame inactive run, 12 active
frames.  The run spans 0.02 s at the 10 ms hop, well under 0.12 s, and
both flanking 0.12 s windows are fully active. -/
def gapMask : List Bool := List.replicate 12 true ++ [false, false] ++ List.replicate 12 true

/-- Claim C5 counterexample: on `gapMask` with `hole = 12` (the value
`detect_speech_regions` derives at 16 kHz), the premises of the claim
hold for the two frame inactive run at indices 12 and 13, the preceding
window `[0, 12)` and the following window `[14, 26)` are fully active,
yet the hole filling leaves both frames inactive: only single frame runs
are ever flipped. -/
theorem fill_holes_cex :
    (gapMask.length = 26
        ∧ gapMask.getD 12 false = false
        ∧ gapMask.getD 13 false = false
        ∧ ((gapMask.drop 0).take 12).all id = true
        ∧ ((gapMask.drop 14).take 12).all id = true)
      ∧ (fill_holes gapMask 12).getD 12 false = false
      ∧ (fill_holes gapMask 12).getD 13 false = false := by decide

/-! ## K-means at k = 1 (claim C4) -/

lemma sumsq_nonneg (v : List ℝ) : 0 ≤ sumsq v := by
  apply List.sum_nonneg
  intro a ha
  obtain ⟨b, _, rfl⟩ := List.mem_map.mp ha
  exact mul_self_nonneg b

lemma normE_sq (v : List ℝ) : normE v ^ 2 = sumsq v := Real.sq_sqrt (sumsq_nonneg v)

lemma getD_replicate {α : Type} {n i : ℕ} {a b : α} :
    (List.replicate n a).getD i b = if i < n then a else b := by
  rw [List.getD_eq_getElem?_getD, List.getElem?_replicate]
  split <;> simp

lemma argminR_one (f : ℕ → ℝ) : argminR f 1 = 0 := by
  simp [argminR, List.range_succ]

lemma kmeansLoop_one (x centers : List (List ℝ)) (fuel : ℕ) :
    kmeansLoop x 1 (fuel + 1) (List.replicate x.length 0) centers =
      (List.replicate x.length 0, centers) := by
  have hnl : (List.range x.length).map
        (fun i => argminR (fun j => pdist (x.getD i []) (centers.getD j [])) 1) =
      List.replicate x.length 0 := by
    have := List.map_congr_left
      (l := List.range x.length)
      (f := fun i => argminR (fun j => pdist (x.getD i []) (centers.getD j [])) 1)
      (g := fun _ => 0) (fun i _ => argminR_one _)
    rw [this, List.map_const', List.length_range]
  simp only [kmeansLoop]
  rw [hnl]
  simp

/-- Helper for claim C4: at `k = 1` the first Lloyd iteration recomputes
the all zero assignment, so the equality test breaks the loop before any
center update, and the inertia is the summed squared distance to the
initial seeded pick `x[r 0 mod n]`. -/
lemma run_kmeans_one (r : ℕ → ℕ) (x : List (List ℝ)) :
    run_kmeans r x 1 =
      (List.replicate x.length 0, [x.getD (r 0 % x.length) []],
        ∑ i ∈ Finset.range x.length,
          sumsq (vsub (x.getD i []) (x.getD (r 0 % x.length) []))) := by
  have hinit : kmeans_pp_init r x 1 = [x.getD (r 0 % x.length) []] := by
    simp [kmeans_pp_init, List.range_succ]
  simp only [run_kmeans]
  rw [hinit, show (60 : ℕ) = 59 + 1 from rfl, kmeansLoop_one]
  simp only [Prod.mk.injEq, true_and]
  refine Finset.sum_congr rfl fun i _ => ?_
  rw [show (List.replicate x.length 0).getD i 0 = 0 by rw [getD_replicate]; split <;> rfl]
  rw [show ([x.getD (r 0 % x.length) []]).getD 0 [] = x.getD (r 0 % x.length) [] from rfl]
  exact normE_sq _

/-- Claim C4 (amended): for every nonempty feature matrix and every
draw stream, `run_kmeans` with `k = 1` returns the all zero assignment,
and its inertia equals the sum of squared Euclidean distances from every
point to the initially picked data point `x[r 0 mod n]` (the seeded
first draw of the k-means++ initialization) — not to the mean of all
points: the Lloyd loop breaks on its first iteration, before any center
is recomputed as a mean. -/
theorem run_kmeans_k1 (r : ℕ → ℕ) (v : List ℝ) (vs : List (List ℝ)) :
    (run_kmeans r (v :: vs) 1).1 = List.replicate (vs.length + 1) 0 ∧
      (run_kmeans r (v :: vs) 1).2.2 =
        ∑ i ∈ Finset.range (vs.length + 1),
          sumsq (vsub ((v :: vs).getD i [])
            ((v :: vs).getD (r 0 % (vs.length + 1)) [])) := by
  rw [run_kmeans_one]
  simp

/-- Modelled from the spec: the total variance of a feature matrix, the
sum of squared Euclidean distances from every point to the mean of all
points, which claim C4 asserts equals the inertia at `k = 1`. -/
noncomputable def totalVariance (x : List (List ℝ)) : ℝ :=
  ∑ i ∈ Finset.range x.length, sumsq (vsub (x.getD i []) (vecMean x))

/-- Claim C4 counterexample: on the two point matrix `[[0], [1]]` the
inertia returned at `k = 1` is `1` (the squared distance of the other
point to the picked point), for either of the two possible values of the
seeded first draw, while the total variance is `1/2`.  So the claimed
equality `inertia = total variance` fails on this input whatever the
seeded generator draws. -/
theorem run_kmeans_k1_cex :
    (run_kmeans (fun _ => 0) [[0], [1]] 1).2.2 ≠ totalVariance [[0], [1]]
      ∧ (run_kmeans (fun _ => 1) [[0], [1]] 1).2.2 ≠ totalVariance [[0], [1]] := by
  have hv : totalVariance [[0], [1]] = 1 / 2 := by
    simp only [totalVariance, vecMean]
    norm_num [Finset.sum_range_succ, List.range_succ, sumsq, vsub, List.getD]
  have h0 : (run_kmeans (fun _ => 0) [[0], [1]] 1).2.2 = 1 := by
    rw [run_kmeans_one]
    norm_num [Finset.sum_range_succ, sumsq, vsub, List.getD]
  have h1 : (run_kmeans (fun _ => 1) [[0], [1]] 1).2.2 = 1 := by
    rw [run_kmeans_one]
    norm_num [Finset.sum_range_succ, sumsq, vsub, List.getD]
  rw [hv, h0, h1]
  norm_num

/-! ## Mel filterbank geometry (claim C8) -/

lemma mel_to_hz_mono : Monotone mel_to_hz := by
  intro a b hab
  unfold mel_to_hz
  have h : (10 : ℝ) ^ (a / 2595) ≤ (10 : ℝ) ^ (b / 2595) :=
    (Real.rpow_le_rpow_left_iff (by norm_num : (1 : ℝ) < 10)).mpr (by linarith)
  linarith

lemma mel_roundtrip (h : ℝ) (hp : 0 < 1 + h / 700) : mel_to_hz (hz_to_mel h) = h := by
  unfold mel_to_hz hz_to_mel
  rw [mul_div_cancel_left₀ _ (by norm_num : (2595 : ℝ) ≠ 0)]
  rw [Real.rpow_logb (by norm_num) (by norm_num) hp]
  ring

lemma melPoint_eq (i : ℕ) : melPoint 16000 24 80 7600 i =
    hz_to_mel 80 + i * (hz_to_mel 7600 - hz_to_mel 80) / 25 := by
  unfold melPoint
  norm_num

lemma melPoint_bounds (i : ℕ) (hi : i ≤ 25) :
    hz_to_mel 80 ≤ melPoint 16000 24 80 7600 i ∧
      melPoint 16000 24 80 7600 i ≤ hz_to_mel 7600 := by
  rw [melPoint_eq]
  have hd : 0 ≤ hz_to_mel 7600 - hz_to_mel 80 := by
    unfold hz_to_mel
    have := Real.logb_le_logb_of_le (by norm_num : (1 : ℝ) < 10)
      (by norm_num : (0 : ℝ) < 1 + 80 / 700)
      (by norm_num : (1 : ℝ) + 80 / 700 ≤ 1 + 7600 / 700)
    linarith
  have hi' : (i : ℝ) ≤ 25 := by exact_mod_cast hi
  have hi0 : (0 : ℝ) ≤ i := Nat.cast_nonneg i
  constructor
  · nlinarith
  · nlinarith

lemma hzPoint_bounds (i : ℕ) (hi : i ≤ 25) :
    80 ≤ mel_to_hz (melPoint 16000 24 80 7600 i) ∧
      mel_to_hz (melPoint 16000 24 80 7600 i) ≤ 7600 := by
  obtain ⟨h1, h2⟩ := melPoint_bounds i hi
  constructor
  · calc (80 : ℝ) = mel_to_hz (hz_to_mel 80) := (mel_roundtrip 80 (by norm_num)).symm
      _ ≤ _ := mel_to_hz_mono h1
  · calc mel_to_hz _ ≤ mel_to_hz (hz_to_mel 7600) := mel_to_hz_mono h2
      _ = 7600 := mel_roundtrip 7600 (by norm_num)

lemma fbBin_eq (i : ℕ) : fbBin 16000 512 24 80 7600 i =
    min (max ⌊(513 : ℝ) * mel_to_hz (melPoint 16000 24 80 7600 i) / 16000⌋ 0) 256 := by
  unfold fbBin
  norm_num

lemma fbBin_bounds (i : ℕ) (hi : i ≤ 25) :
    0 ≤ fbBin 16000 512 24 80 7600 i ∧ fbBin 16000 512 24 80 7600 i ≤ 243 := by
  rw [fbBin_eq]
  obtain ⟨h1, h2⟩ := hzPoint_bounds i hi
  have hr0 : (0 : ℤ) ≤ ⌊(513 : ℝ) * mel_to_hz (melPoint 16000 24 80 7600 i) / 16000⌋ :=
    Int.floor_nonneg.mpr (by nlinarith)
  have hr1 : ⌊(513 : ℝ) * mel_to_hz (melPoint 16000 24 80 7600 i) / 16000⌋ < 244 :=
    Int.floor_lt.mpr (by push_cast; nlinarith)
  constructor
  · exact le_min (le_max_right _ _) (by norm_num)
  · exact le_trans (min_le_left _ _) (max_le (by omega) (by norm_num))

lemma fb_geometry (m : ℕ) (hm : m < 24) :
    fbLeft 16000 512 24 80 7600 m < fbCenter 16000 512 24 80 7600 m ∧
      fbCenter 16000 512 24 80 7600 m < fbRight 16000 512 24 80 7600 m ∧
      0 ≤ fbLeft 16000 512 24 80 7600 m ∧
      fbCenter 16000 512 24 80 7600 m ≤ 244 ∧
      fbRight 16000 512 24 80 7600 m ≤ 245 := by
  have hL := fbBin_bounds m (by omega)
  have hC := fbBin_bounds (m + 1) (by omega)
  have hR := fbBin_bounds (m + 2) (by omega)
  unfold fbRight fbCenter fbLeft at *
  omega

/-- Claim C8: in the mel filterbank as built by the pipeline
(sample rate 16000, n_fft 512, 24 mel bands, band edges 80 Hz to
`min(7600, 16000/2 - 1) = 7600` Hz), every row sums to a positive value,
every nonzero entry of a row sits at an FFT bin index at most
`n_fft / 2 = 256`, and the zero width spans are widened: each row has
`left < center < right`, so both ramp denominators are nonzero. -/
theorem mel_filterbank_spec (m : Fin 24) :
    (0 < ∑ k ∈ Finset.range 257, build_mel_filterbank 16000 512 24 80 7600 m k)
      ∧ (∀ k : ℕ, build_mel_filterbank 16000 512 24 80 7600 m k ≠ 0 → k ≤ 256)
      ∧ fbLeft 16000 512 24 80 7600 m < fbCenter 16000 512 24 80 7600 m
      ∧ fbCenter 16000 512 24 80 7600 m < fbRight 16000 512 24 80 7600 m := by
  obtain ⟨hlc, hcr, hl0, hc244, hr245⟩ := fb_geometry m m.isLt
  have hfb : ∀ k : ℕ, build_mel_filterbank 16000 512 24 80 7600 m k =
      (if fbLeft 16000 512 24 80 7600 m ≤ (k : ℤ) ∧
          (k : ℤ) < fbCenter 16000 512 24 80 7600 m then
        ((k : ℝ) - (fbLeft 16000 512 24 80 7600 m : ℝ)) /
          ((fbCenter 16000 512 24 80 7600 m : ℝ) - (fbLeft 16000 512 24 80 7600 m : ℝ))
      else if fbCenter 16000 512 24 80 7600 m ≤ (k : ℤ) ∧
          (k : ℤ) < fbRight 16000 512 24 80 7600 m then
        ((fbRight 16000 512 24 80 7600 m : ℝ) - (k : ℝ)) /
          ((fbRight 16000 512 24 80 7600 m : ℝ) - (fbCenter 16000 512 24 80 7600 m : ℝ))
      else 0) := by
    intro k
    simp only [build_mel_filterbank]
    rw [if_pos m.isLt]
  have hnn : ∀ k ∈ Finset.range 257, 0 ≤ build_mel_filterbank 16000 512 24 80 7600 m k := by
    intro k _
    rw [hfb k]
    split
    · rename_i hk
      apply div_nonneg
      · have : (fbLeft 16000 512 24 80 7600 m : ℝ) ≤ (k : ℝ) := by exact_mod_cast hk.1
        linarith
      · have : (fbLeft 16000 512 24 80 7600 m : ℝ) < (fbCenter 16000 512 24 80 7600 m : ℝ) := by
          exact_mod_cast hlc
        linarith
    · split
      · rename_i hk
        apply div_nonneg
        · have : (k : ℝ) < (fbRight 16000 512 24 80 7600 m : ℝ) := by exact_mod_cast hk.2
          linarith
        · have : (fbCenter 16000 512 24 80 7600 m : ℝ) <
              (fbRight 16000 512 24 80 7600 m : ℝ) := by exact_mod_cast hcr
          linarith
      · exact le_refl 0
  have hc0 : 0 ≤ fbCenter 16000 512 24 80 7600 m := by omega
  have hcast : ((fbCenter 16000 512 24 80 7600 m).toNat : ℤ) =
      fbCenter 16000 512 24 80 7600 m := Int.toNat_of_nonneg hc0
  have hmem : (fbCenter 16000 512 24 80 7600 m).toNat ∈ Finset.range 257 := by
    apply Finset.mem_range.mpr
    omega
  have hpos : 0 < build_mel_filterbank 16000 512 24 80 7600 m
      (fbCenter 16000 512 24 80 7600 m).toNat := by
    rw [hfb]
    rw [if_neg (by rw [hcast]; omega)]
    rw [if_pos (by rw [hcast]; omega)]
    have hcastR : (((fbCenter 16000 512 24 80 7600 m).toNat : ℕ) : ℝ) =
        ((fbCenter 16000 512 24 80 7600 m : ℤ) : ℝ) := by exact_mod_cast hcast
    rw [hcastR]
    have hne : (fbRight 16000 512 24 80 7600 m : ℝ) -
        (fbCenter 16000 512 24 80 7600 m : ℝ) > 0 := by
      have : (fbCenter 16000 512 24 80 7600 m : ℝ) <
          (fbRight 16000 512 24 80 7600 m : ℝ) := by exact_mod_cast hcr
      linarith
    rw [div_self (by linarith)]
    norm_num
  refine ⟨Finset.sum_pos' hnn ⟨_, hmem, hpos⟩, ?_, hlc, hcr⟩
  intro k hk
  rw [hfb k] at hk
  by_cases h1 : fbLeft 16000 512 24 80 7600 m ≤ (k : ℤ) ∧
      (k : ℤ) < fbCenter 16000 512 24 80 7600 m
  · omega
  · rw [if_neg h1] at hk
    by_cases h2 : fbCenter 16000 512 24 80 7600 m ≤ (k : ℤ) ∧
        (k : ℤ) < fbRight 16000 512 24 80 7600 m
    · omega
    · rw [if_neg h2] at hk
      exact absurd rfl hk

/-! ## Feature extraction: dimension and normalization (claim C7) -/

lemma sumsq_cons (a : ℝ) (t : List ℝ) : sumsq (a :: t) = a * a + sumsq t := by
  simp [sumsq]

lemma sumsq_append (u v : List ℝ) : sumsq (u ++ v) = sumsq u + sumsq v := by
  simp [sumsq]

lemma sumsq_map_div (v : List ℝ) (c : ℝ) :
    sumsq (v.map fun a => a / c) = sumsq v / c ^ 2 := by
  induction v with
  | nil => simp [sumsq]
  | cons a t ih =>
    simp only [List.map_cons, sumsq_cons]
    rw [ih, div_mul_div_comm, show c * c = c ^ 2 from (sq c).symm, div_add_div_same]

lemma normE_unit (v : List ℝ) (hv : 0 < normE v) :
    normE (v.map fun a => a / normE v) = 1 := by
  unfold normE at *
  rw [sumsq_map_div, Real.sqrt_div (sumsq_nonneg v), Real.sqrt_sq_eq_abs,
    abs_of_pos hv]
  exact div_self (ne_of_gt hv)

lemma chunk_duration (samples : List ℝ) (start_s end_s : ℝ) (h0 : 0 ≤ start_s)
    (h1 : start_s < end_s) (hlen : 6400 ≤ (chunkOf samples 16000 start_s end_s).length) :
    6399 / 16000 < end_s - start_s := by
  have hst_nonneg : 0 ≤ start_s * ((16000 : ℕ) : ℝ) := mul_nonneg h0 (by norm_num)
  have hend_nonneg : 0 ≤ end_s * ((16000 : ℕ) : ℝ) :=
    mul_nonneg (le_trans h0 (le_of_lt h1)) (by norm_num)
  have hsflr : (0 : ℤ) ≤ ⌊start_s * ((16000 : ℕ) : ℝ)⌋ := Int.floor_nonneg.mpr hst_nonneg
  have heflr : (0 : ℤ) ≤ ⌊end_s * ((16000 : ℕ) : ℝ)⌋ := Int.floor_nonneg.mpr hend_nonneg
  have heRaw : (0 : ℤ) ≤ min (samples.length : ℤ) ⌊end_s * ((16000 : ℕ) : ℝ)⌋ :=
    le_min (Int.natCast_nonneg _) heflr
  have hs : (chunkStart 16000 start_s : ℤ) = ⌊start_s * ((16000 : ℕ) : ℝ)⌋ := by
    unfold chunkStart pyInt
    rw [if_neg (not_lt.mpr hst_nonneg), max_eq_right hsflr]
    exact Int.toNat_of_nonneg hsflr
  have he : (chunkStop samples.length 16000 end_s : ℤ) =
      min (samples.length : ℤ) ⌊end_s * ((16000 : ℕ) : ℝ)⌋ := by
    simp only [chunkStop, pyInt]
    rw [if_neg (not_lt.mpr hend_nonneg), if_neg (not_lt.mpr heRaw)]
    exact Int.toNat_of_nonneg heRaw
  have hlen_eq : (chunkOf samples 16000 start_s end_s).length =
      min (chunkStop samples.length 16000 end_s) samples.length -
        chunkStart 16000 start_s := by
    unfold chunkOf
    rw [List.length_drop, List.length_take]
  rw [hlen_eq] at hlen
  have h6400 : (chunkStart 16000 start_s : ℤ) + 6400 ≤
      (chunkStop samples.length 16000 end_s : ℤ) := by
    have hx : chunkStart 16000 start_s + 6400 ≤ chunkStop samples.length 16000 end_s := by
      have := min_le_left (chunkStop samples.length 16000 end_s) samples.length
      omega
    exact_mod_cast hx
  have hsR : start_s * ((16000 : ℕ) : ℝ) - 1 < ((chunkStart 16000 start_s : ℤ) : ℝ) := by
    rw [hs]
    exact Int.sub_one_lt_floor _
  have heR : ((chunkStop samples.length 16000 end_s : ℤ) : ℝ) ≤ end_s * ((16000 : ℕ) : ℝ) := by
    rw [he]
    calc ((min (samples.length : ℤ) ⌊end_s * ((16000 : ℕ) : ℝ)⌋ : ℤ) : ℝ)
        ≤ ((⌊end_s * ((16000 : ℕ) : ℝ)⌋ : ℤ) : ℝ) := by
          exact_mod_cast min_le_right (samples.length : ℤ) ⌊end_s * ((16000 : ℕ) : ℝ)⌋
      _ ≤ end_s * ((16000 : ℕ) : ℝ) := Int.floor_le _
  have h6400R : ((chunkStart 16000 start_s : ℤ) : ℝ) + 6400 ≤
      ((chunkStop samples.length 16000 end_s : ℤ) : ℝ) := by exact_mod_cast h6400
  have hcast : ((16000 : ℕ) : ℝ) = 16000 := by norm_num
  rw [hcast] at hsR heR
  rw [div_lt_iff₀ (by norm_num : (0 : ℝ) < 16000)]
  nlinarith

lemma embedFrames_two (chunk : List ℝ) (hc : 6400 ≤ chunk.length) :
    2 ≤ (embedFrames chunk 16000).length := by
  unfold embedFrames
  rw [List.length_map]
  have h25 : ((0.025 : ℚ) * ((16000 : ℕ) : ℚ)).floor.toNat = 400 := by norm_num; decide
  have h01 : ((0.01 : ℚ) * ((16000 : ℕ) : ℚ)).floor.toNat = 160 := by norm_num; decide
  rw [h25, h01]
  unfold frame_audio
  rw [if_neg (by omega : ¬ chunk.length = 0)]
  simp only [List.length_map, List.length_range]
  rw [if_neg (by omega : ¬ chunk.length < 400)]
  have hdiv : 1 ≤ (chunk.length - 400) / 160 := by
    rw [Nat.le_div_iff_mul_le (by norm_num : 0 < 160)]
    omega
  omega

lemma dur_le_sumsq (A B : List ℝ) (c1 c2 dur rms : ℝ) :
    dur * dur ≤ sumsq (A ++ B ++ [c1, c2, dur, rms]) := by
  rw [sumsq_append, sumsq_append]
  have hA := sumsq_nonneg A
  have hB := sumsq_nonneg B
  have hnil : sumsq ([] : List ℝ) = 0 := rfl
  simp only [sumsq_cons, hnil]
  nlinarith [mul_self_nonneg c1, mul_self_nonneg c2, mul_self_nonneg rms]

lemma embedFeature_parts (samples : List ℝ) (start_s end_s : ℝ) (mel_fb dct : ℕ → ℕ → ℝ) :
    (embedFeature samples 16000 start_s end_s mel_fb dct).length = 30 ∧
      (end_s - start_s) * (end_s - start_s) ≤
        sumsq (embedFeature samples 16000 start_s end_s mel_fb dct) := by
  constructor
  · simp only [embedFeature]
    simp
  · simp only [embedFeature]
    exact dur_le_sumsq _ _ _ _ _ _

/-- Claim C7: for every audio buffer and speech interval (a time pair
with `0 ≤ start < end`), `extract_embedding` returns a 30 entry vector;
when the sliced sample range is shorter than 0.4 s (6400 samples at
16 kHz) it is the all zero vector, otherwise it has L2 norm 1; and
whenever the pre normalization norm is at most `1e-8` the returned
vector is the all zero vector (in the non degenerate branch that norm
always exceeds the interval duration, which exceeds `6399/16000`, so the
guard can only be met degenerately). -/
theorem extract_embedding_spec (samples : List ℝ) (start_s end_s : ℝ)
    (mel_fb dct : ℕ → ℕ → ℝ) (h0 : 0 ≤ start_s) (h1 : start_s < end_s) :
    (extract_embedding samples 16000 start_s end_s mel_fb dct).length = 30
      ∧ ((chunkOf samples 16000 start_s end_s).length < 6400 →
          extract_embedding samples 16000 start_s end_s mel_fb dct = List.replicate 30 0)
      ∧ (6400 ≤ (chunkOf samples 16000 start_s end_s).length →
          normE (extract_embedding samples 16000 start_s end_s mel_fb dct) = 1)
      ∧ (normE (embedFeature samples 16000 start_s end_s mel_fb dct) ≤ 1e-8 →
          extract_embedding samples 16000 start_s end_s mel_fb dct = List.replicate 30 0) := by
  have h04 : ((0.4 : ℚ) * ((16000 : ℕ) : ℚ)).floor.toNat = 6400 := by norm_num; decide
  by_cases hdeg : (chunkOf samples 16000 start_s end_s).length < 6400
  · have hz : extract_embedding samples 16000 start_s end_s mel_fb dct =
        List.replicate 30 0 := by
      simp only [extract_embedding, h04]
      rw [if_pos hdeg]
    refine ⟨by rw [hz]; simp, fun _ => hz, fun hge => absurd hge (by omega), fun _ => hz⟩
  · push_neg at hdeg
    have hdur := chunk_duration samples start_s end_s h0 h1 hdeg
    obtain ⟨hflen, hfsq⟩ := embedFeature_parts samples start_s end_s mel_fb dct
    have hdpos : 0 < end_s - start_s := by linarith
    have hnorm : 6399 / 16000 < normE (embedFeature samples 16000 start_s end_s mel_fb dct) := by
      have h1' : (end_s - start_s) ≤ normE (embedFeature samples 16000 start_s end_s mel_fb dct) := by
        unfold normE
        calc end_s - start_s = Real.sqrt ((end_s - start_s) * (end_s - start_s)) :=
              (Real.sqrt_mul_self (le_of_lt hdpos)).symm
          _ ≤ Real.sqrt (sumsq (embedFeature samples 16000 start_s end_s mel_fb dct)) :=
              Real.sqrt_le_sqrt hfsq
      linarith
    have hnorm8 : (1e-8 : ℝ) < normE (embedFeature samples 16000 start_s end_s mel_fb dct) := by
      have : (1e-8 : ℝ) < 6399 / 16000 := by norm_num
      linarith
    have hval : extract_embedding samples 16000 start_s end_s mel_fb dct =
        (embedFeature samples 16000 start_s end_s mel_fb dct).map
          (fun a => a / normE (embedFeature samples 16000 start_s end_s mel_fb dct)) := by
      simp only [extract_embedding, h04]
      rw [if_neg (by omega), if_neg (by
        have := embedFrames_two (chunkOf samples 16000 start_s end_s) hdeg
        omega), if_pos hnorm8]
    refine ⟨?_, fun hlt => absurd hlt (by omega), fun _ => ?_, fun hle => absurd hle (by linarith)⟩
    · rw [hval, List.length_map, hflen]
    · rw [hval]
      exact normE_unit _ (lt_trans (by norm_num) hnorm8)

/-- Claim C7 witness: the theorem applied at the empty buffer and the
interval `[0, 1]`; the slice is empty, so the zero vector branch is
exercised and the dimension is 30. -/
theorem extract_embedding_spec_witness :
    (extract_embedding [] 16000 0 1 (fun _ _ => 0) (fun _ _ => 0)).length = 30 :=
  (extract_embedding_spec [] 0 1 (fun _ _ => 0) (fun _ _ => 0)
    (by norm_num) (by norm_num)).1

/-! ## Ordering of the detected speech intervals -/

lemma maskRunsAux_spec :
    ∀ (t : List Bool) (i : ℕ) (st : Option ℕ), (∀ s, st = some s → s < i) →
      List.Chain' (fun p q : ℕ × ℕ => p.2 + 2 ≤ q.1) (maskRunsAux i st t) ∧
        ∀ p ∈ maskRunsAux i st t, p.1 ≤ p.2 ∧ st.getD i ≤ p.1 := by
  intro t
  induction t with
  | nil =>
    intro i st hst
    cases st with
    | none => simp [maskRunsAux]
    | some s =>
      have hsi := hst s rfl
      simp only [maskRunsAux]
      refine ⟨List.chain'_singleton _, ?_⟩
      intro p hp
      rw [List.mem_singleton] at hp
      subst hp
      exact ⟨by omega, le_refl s⟩
  | cons a t ih =>
    intro i st hst
    cases st with
    | none =>
      cases a with
      | true =>
        have h := ih (i + 1) (some i) (fun s hs => by injection hs with h; omega)
        simp only [maskRunsAux]
        refine ⟨h.1, fun p hp => ?_⟩
        have := h.2 p hp
        simpa using this
      | false =>
        have h := ih (i + 1) none (fun s hs => by cases hs)
        simp only [maskRunsAux]
        refine ⟨h.1, fun p hp => ?_⟩
        have := h.2 p hp
        simp only [Option.getD_none] at this ⊢
        exact ⟨this.1, by omega⟩
    | some s =>
      have hsi := hst s rfl
      cases a with
      | true =>
        have h := ih (i + 1) (some s) (fun s' hs' => by injection hs' with h'; omega)
        simp only [maskRunsAux]
        exact h
      | false =>
        have h := ih (i + 1) none (fun s' hs' => by cases hs')
        simp only [maskRunsAux]
        constructor
        · rw [List.chain'_cons']
          refine ⟨fun y hy => ?_, h.1⟩
          have hmem := List.mem_of_mem_head? hy
          have := h.2 y hmem
          simp only [Option.getD_none] at this
          omega
        · intro p hp
          rw [List.mem_cons] at hp
          rcases hp with hp | hp
          · subst hp
            exact ⟨by simp; omega, by simp⟩
          · have := h.2 p hp
            simp only [Option.getD_none] at this
            simp only [Option.getD_some]
            exact ⟨this.1, by omega⟩

lemma maskRuns_spec (mask : List Bool) :
    List.Chain' (fun p q : ℕ × ℕ => p.2 + 2 ≤ q.1) (maskRuns mask) ∧
      ∀ p ∈ maskRuns mask, p.1 ≤ p.2 := by
  have h := maskRunsAux_spec mask 0 none (fun s hs => by cases hs)
  exact ⟨h.1, fun p hp => (h.2 p hp).1⟩

lemma chain'_and_forall {α : Type} {R : α → α → Prop} {P : α → Prop} :
    ∀ {l : List α}, List.Chain' R l → (∀ a ∈ l, P a) →
      List.Chain' (fun a b => P a ∧ P b ∧ R a b) l := by
  intro l
  induction l with
  | nil => intro _ _; exact List.chain'_nil
  | cons a t ih =>
    intro hc hp
    rw [List.chain'_cons'] at hc ⊢
    refine ⟨fun y hy => ?_, ih hc.2 fun b hb => hp b (List.mem_cons_of_mem a hb)⟩
    have hya : y ∈ t := List.mem_of_mem_head? hy
    exact ⟨hp a (List.mem_cons_self a t), hp y (List.mem_cons_of_mem a hya), hc.1 y hy⟩

lemma mergeFold_spec :
    ∀ (rs acc : List (ℝ × ℝ)),
      List.Pairwise (fun u v : ℝ × ℝ => u.1 < v.1 ∧ u.2 < v.2) rs →
      List.Chain' (fun u v : ℝ × ℝ => v.2 + 0.35 < u.1) acc →
      (∀ u ∈ acc, 0.65 ≤ u.2 - u.1) →
      (∀ p ∈ acc.head?, ∀ q ∈ rs, p.2 < q.2) →
      List.Chain' (fun u v : ℝ × ℝ => v.2 + 0.35 < u.1) (rs.foldl mergeStep acc) ∧
        ∀ u ∈ rs.foldl mergeStep acc, 0.65 ≤ u.2 - u.1 := by
  intro rs
  induction rs with
  | nil => intro acc _ hc hd _; exact ⟨hc, hd⟩
  | cons r rs ih =>
    intro acc hpw hc hd hh
    rw [List.pairwise_cons] at hpw
    obtain ⟨hr, hpw'⟩ := hpw
    rw [List.foldl_cons]
    by_cases hshort : r.2 - r.1 < 0.65
    · have hstep : mergeStep acc r = acc := by unfold mergeStep; rw [if_pos hshort]
      rw [hstep]
      exact ih acc hpw' hc hd fun p hp q hq => hh p hp q (List.mem_cons_of_mem r hq)
    · cases acc with
      | nil =>
        have hstep : mergeStep [] r = [r] := by unfold mergeStep; rw [if_neg hshort]
        rw [hstep]
        refine ih [r] hpw' (List.chain'_singleton r) ?_ ?_
        · intro u hu
          rw [List.mem_singleton] at hu
          subst hu
          linarith
        · intro p hp q hq
          simp only [List.head?_cons, Option.mem_some_iff] at hp
          subst hp
          exact (hr q hq).2
      | cons p rest =>
        by_cases hgap : r.1 - p.2 ≤ 0.35
        · have hstep : mergeStep (p :: rest) r = (p.1, r.2) :: rest := by
            unfold mergeStep
            rw [if_neg hshort]
            simp only [if_pos hgap]
          rw [hstep]
          rw [List.chain'_cons'] at hc
          have hpr : p.2 < r.2 := hh p (by simp) r (List.mem_cons_self r rs)
          refine ih _ hpw' ?_ ?_ ?_
          · rw [List.chain'_cons']
            exact ⟨fun y hy => hc.1 y hy, hc.2⟩
          · intro u hu
            rw [List.mem_cons] at hu
            rcases hu with hu | hu
            · subst hu
              have := hd p (List.mem_cons_self p rest)
              simp only at this ⊢
              linarith
            · exact hd u (List.mem_cons_of_mem p hu)
          · intro p' hp' q hq
            simp only [List.head?_cons, Option.mem_some_iff] at hp'
            subst hp'
            exact (hr q hq).2
        · have hstep : mergeStep (p :: rest) r = r :: p :: rest := by
            unfold mergeStep
            rw [if_neg hshort]
            simp only [if_neg hgap]
          rw [hstep]
          refine ih _ hpw' ?_ ?_ ?_
          · rw [List.chain'_cons']
            refine ⟨fun y hy => ?_, hc⟩
            simp only [List.head?_cons, Option.mem_some_iff] at hy
            subst hy
            linarith [not_le.mp hgap]
          · intro u hu
            rw [List.mem_cons] at hu
            rcases hu with hu | hu
            · subst hu; linarith
            · exact hd u hu
          · intro p' hp' q hq
            simp only [List.head?_cons, Option.mem_some_iff] at hp'
            subst hp'
            exact (hr q hq).2

lemma mergeRegions_spec (rs : List (ℝ × ℝ))
    (hpw : List.Pairwise (fun u v : ℝ × ℝ => u.1 < v.1 ∧ u.2 < v.2) rs) :
    List.Chain' (fun u v : ℝ × ℝ => u.2 + 0.35 < v.1) (mergeRegions rs) ∧
      ∀ u ∈ mergeRegions rs, 0.65 ≤ u.2 - u.1 := by
  have h := mergeFold_spec rs [] hpw List.chain'_nil (by simp) (by simp)
  unfold mergeRegions
  constructor
  · rw [List.chain'_reverse]
    exact h.1
  · intro u hu
    rw [List.mem_reverse] at hu
    exact h.2 u hu

lemma timeRegions_pairwise (runs : List (ℕ × ℕ)) (fs hs sr : ℕ) (hhs : 0 < hs)
    (hsr : 0 < sr)
    (hchain : List.Chain' (fun p q : ℕ × ℕ => p.2 + 2 ≤ q.1) runs)
    (hmem : ∀ p ∈ runs, p.1 ≤ p.2) :
    List.Pairwise (fun u v : ℝ × ℝ => u.1 < v.1 ∧ u.2 < v.2)
      (runs.map fun p =>
        (((p.1 * hs : ℕ) : ℝ) / (sr : ℝ), ((p.2 * hs : ℕ) : ℝ) / (sr : ℝ) + (fs : ℝ) / (sr : ℝ))) := by
  have hcomb := chain'_and_forall hchain hmem
  have hsrR : (0 : ℝ) < (sr : ℝ) := by exact_mod_cast hsr
  have hmap : List.Chain' (fun u v : ℝ × ℝ => u.1 < v.1 ∧ u.2 < v.2)
      (runs.map fun p =>
        (((p.1 * hs : ℕ) : ℝ) / (sr : ℝ), ((p.2 * hs : ℕ) : ℝ) / (sr : ℝ) + (fs : ℝ) / (sr : ℝ))) := by
    rw [List.chain'_map]
    refine hcomb.imp ?_
    rintro a b ⟨ha, hb, hab⟩
    have h1 : a.1 * hs < b.1 * hs := by
      apply (Nat.mul_lt_mul_right hhs).mpr
      omega
    have h2 : a.2 * hs < b.2 * hs := by
      apply (Nat.mul_lt_mul_right hhs).mpr
      omega
    have h1R : ((a.1 * hs : ℕ) : ℝ) < ((b.1 * hs : ℕ) : ℝ) := by exact_mod_cast h1
    have h2R : ((a.2 * hs : ℕ) : ℝ) < ((b.2 * hs : ℕ) : ℝ) := by exact_mod_cast h2
    constructor
    · exact div_lt_div_of_pos_right h1R hsrR
    · have := div_lt_div_of_pos_right h2R hsrR
      linarith
  letI : IsTrans (ℝ × ℝ) (fun u v : ℝ × ℝ => u.1 < v.1 ∧ u.2 < v.2) :=
    ⟨fun a b c hab hbc => ⟨lt_trans hab.1 hbc.1, lt_trans hab.2 hbc.2⟩⟩
  exact List.chain'_iff_pairwise.mp hmap

/-- The output of the speech activity detector at the pipeline sample
rate: consecutive intervals are separated by a gap of more than 0.35 s,
and every interval lasts at least 0.65 s. -/
lemma detect_spec (samples : List ℝ) :
    List.Chain' (fun u v : ℝ × ℝ => u.2 + 0.35 < v.1) (detect_speech_regions samples 16000) ∧
      ∀ u ∈ detect_speech_regions samples 16000, 0.65 ≤ u.2 - u.1 := by
  simp only [detect_speech_regions]
  split
  · simp
  · refine mergeRegions_spec _ ?_
    refine timeRegions_pairwise _ _ _ _ ?_ ?_ (maskRuns_spec _).1 (maskRuns_spec _).2
    · norm_num
      decide
    · norm_num

/-! ## The final segment merge loop -/

lemma segFold_sep :
    ∀ (rs acc : List Segment),
      List.Chain' (fun x y : Segment => ¬(y.speaker = x.speaker ∧ x.start - y.stop ≤ 0.45)) acc →
      List.Chain' (fun x y : Segment => ¬(y.speaker = x.speaker ∧ x.start - y.stop ≤ 0.45))
        (rs.foldl segStep acc) := by
  intro rs
  induction rs with
  | nil => intro acc h; exact h
  | cons r rs ih =>
    intro acc hc
    rw [List.foldl_cons]
    apply ih
    cases acc with
    | nil => exact List.chain'_singleton r
    | cons p rest =>
      by_cases h : p.speaker = r.speaker ∧ r.start - p.stop ≤ 0.45
      · have hstep : segStep (p :: rest) r = ⟨p.start, max p.stop r.stop, p.speaker⟩ :: rest := by
          simp only [segStep]
          rw [if_pos h]
        rw [hstep]
        rw [List.chain'_cons'] at hc ⊢
        exact ⟨fun y hy => hc.1 y hy, hc.2⟩
      · have hstep : segStep (p :: rest) r = r :: p :: rest := by
          simp only [segStep]
          rw [if_neg h]
        rw [hstep]
        rw [List.chain'_cons']
        refine ⟨fun y hy => ?_, hc⟩
        simp only [List.head?_cons, Option.mem_some_iff] at hy
        subst hy
        exact h

lemma segFold_times (Ps Pe : ℝ → Prop) :
    ∀ (rs acc : List Segment),
      (∀ r ∈ rs, Ps r.start ∧ Pe r.stop) →
      (∀ s ∈ acc, Ps s.start ∧ Pe s.stop) →
      ∀ s ∈ rs.foldl segStep acc, Ps s.start ∧ Pe s.stop := by
  intro rs
  induction rs with
  | nil => intro acc _ hacc; exact hacc
  | cons r rs ih =>
    intro acc hrs hacc
    rw [List.foldl_cons]
    refine ih _ (fun q hq => hrs q (List.mem_cons_of_mem r hq)) ?_
    have hr := hrs r (List.mem_cons_self r rs)
    cases acc with
    | nil =>
      intro s hs
      rw [show segStep [] r = [r] from rfl, List.mem_singleton] at hs
      subst hs
      exact hr
    | cons p rest =>
      by_cases h : p.speaker = r.speaker ∧ r.start - p.stop ≤ 0.45
      · have hstep : segStep (p :: rest) r = ⟨p.start, max p.stop r.stop, p.speaker⟩ :: rest := by
          simp only [segStep]
          rw [if_pos h]
        rw [hstep]
        intro s hs
        rw [List.mem_cons] at hs
        rcases hs with hs | hs
        · subst hs
          have hp := hacc p (List.mem_cons_self p rest)
          refine ⟨hp.1, ?_⟩
          rcases max_choice p.stop r.stop with hmx | hmx <;> simp only [hmx]
          · exact hp.2
          · exact hr.2
        · exact hacc s (List.mem_cons_of_mem p hs)
      · have hstep : segStep (p :: rest) r = r :: p :: rest := by
          simp only [segStep]
          rw [if_neg h]
        rw [hstep]
        intro s hs
        rw [List.mem_cons] at hs
        rcases hs with hs | hs
        · subst hs; exact hr
        · exact hacc s hs

lemma segFold_wf :
    ∀ (rs acc : List Segment),
      List.Pairwise (fun a b : Segment => a.stop + 0.35 < b.start) rs →
      (∀ r ∈ rs, r.start < r.stop) →
      List.Chain' (fun x y : Segment => y.stop < x.start) acc →
      (∀ s ∈ acc, s.start < s.stop) →
      (∀ p ∈ acc.head?, ∀ q ∈ rs, p.stop < q.start) →
      List.Chain' (fun x y : Segment => y.stop < x.start) (rs.foldl segStep acc) ∧
        ∀ s ∈ rs.foldl segStep acc, s.start < s.stop := by
  intro rs
  induction rs with
  | nil => intro acc _ _ hc hd _; exact ⟨hc, hd⟩
  | cons r rs ih =>
    intro acc hpw hdur hc hd hh
    rw [List.pairwise_cons] at hpw
    obtain ⟨hr, hpw'⟩ := hpw
    have hrd : r.start < r.stop := hdur r (List.mem_cons_self r rs)
    rw [List.foldl_cons]
    cases acc with
    | nil =>
      refine ih [r] hpw' (fun q hq => hdur q (List.mem_cons_of_mem r hq))
        (List.chain'_singleton r) ?_ ?_
      · intro s hs
        rw [List.mem_singleton] at hs
        subst hs
        exact hrd
      · intro p hp q hq
        simp only [List.head?_cons, Option.mem_some_iff] at hp
        subst hp
        linarith [hr q hq]
    | cons p rest =>
      have hpd := hd p (List.mem_cons_self p rest)
      have hpr : p.stop < r.start := hh p (by simp) r (List.mem_cons_self r rs)
      by_cases h : p.speaker = r.speaker ∧ r.start - p.stop ≤ 0.45
      · have hstep : segStep (p :: rest) r = ⟨p.start, max p.stop r.stop, p.speaker⟩ :: rest := by
          simp only [segStep]
          rw [if_pos h]
        rw [hstep]
        rw [List.chain'_cons'] at hc
        refine ih _ hpw' (fun q hq => hdur q (List.mem_cons_of_mem r hq)) ?_ ?_ ?_
        · rw [List.chain'_cons']
          exact ⟨fun y hy => hc.1 y hy, hc.2⟩
        · intro s hs
          rw [List.mem_cons] at hs
          rcases hs with hs | hs
          · subst hs
            simp only
            exact lt_max_of_lt_left hpd
          · exact hd s (List.mem_cons_of_mem p hs)
        · intro p' hp' q hq
          simp only [List.head?_cons, Option.mem_some_iff] at hp'
          subst hp'
          simp only
          have h1 : p.stop < q.start := by
            have := hr q hq
            linarith
          have h2 : r.stop < q.start := by
            have := hr q hq
            linarith
          exact max_lt h1 h2
      · have hstep : segStep (p :: rest) r = r :: p :: rest := by
          simp only [segStep]
          rw [if_neg h]
        rw [hstep]
        refine ih _ hpw' (fun q hq => hdur q (List.mem_cons_of_mem r hq)) ?_ ?_ ?_
        · rw [List.chain'_cons']
          refine ⟨fun y hy => ?_, hc⟩
          simp only [List.head?_cons, Option.mem_some_iff] at hy
          subst hy
          exact hpr
        · intro s hs
          rw [List.mem_cons] at hs
          rcases hs with hs | hs
          · subst hs; exact hrd
          · exact hd s hs
        · intro p' hp' q hq
          simp only [List.head?_cons, Option.mem_some_iff] at hp'
          subst hp'
          linarith [hr q hq]

lemma segFold_speakers :
    ∀ (rs acc : List Segment),
      ((rs.foldl segStep acc).map Segment.speaker).toFinset =
        (rs.map Segment.speaker).toFinset ∪ (acc.map Segment.speaker).toFinset := by
  intro rs
  induction rs with
  | nil => intro acc; simp
  | cons r rs ih =>
    intro acc
    rw [List.foldl_cons, ih]
    have hstep : ((segStep acc r).map Segment.speaker).toFinset =
        insert r.speaker (acc.map Segment.speaker).toFinset := by
      cases acc with
      | nil => simp [segStep]
      | cons p rest =>
        by_cases h : p.speaker = r.speaker ∧ r.start - p.stop ≤ 0.45
        · have hs : segStep (p :: rest) r = ⟨p.start, max p.stop r.stop, p.speaker⟩ :: rest := by
            simp only [segStep]
            rw [if_pos h]
          rw [hs]
          simp only [List.map_cons, List.toFinset_cons]
          rw [← h.1, Finset.insert_idem]
        · have hs : segStep (p :: rest) r = r :: p :: rest := by
            simp only [segStep]
            rw [if_neg h]
          rw [hs]
          simp [List.toFinset_cons]
    rw [hstep]
    simp only [List.map_cons, List.toFinset_cons]
    ext a
    simp only [Finset.mem_union, Finset.mem_insert]
    tauto

/-! ## Assembling the diarization result -/

lemma map_getD_range {α : Type} (l : List α) (d : α) :
    (List.range l.length).map (fun i => l.getD i d) = l := by
  apply List.ext_getElem
  · simp
  · intro i h1 h2
    simp only [List.getElem_map, List.getElem_range, List.getD_eq_getElem?_getD]
    rw [List.getElem?_eq_getElem h2]
    rfl

lemma labeledRegions_proj (speech : List (ℝ × ℝ)) (labels : List ℕ) :
    (labeledRegions speech labels).map (fun s => (s.start, s.stop)) = speech := by
  unfold labeledRegions
  rw [List.map_map]
  have : ((fun s : Segment => (s.start, s.stop)) ∘ fun i =>
      Segment.mk (speech.getD i (0, 0)).1 (speech.getD i (0, 0)).2 (labels.getD i 0)) =
      fun i => speech.getD i (0, 0) := by
    funext i
    rfl
  rw [this, map_getD_range]

lemma list_toFinset_map (l : List ℕ) (f : ℕ → ℕ) :
    (l.map f).toFinset = l.toFinset.image f := by
  ext b
  simp

lemma indexOf_mem_inj {l : List ℕ} {a b : ℕ} (ha : a ∈ l) (hb : b ∈ l)
    (h : l.indexOf a = l.indexOf b) : a = b := by
  have hlt1 : l.indexOf a < l.length := List.indexOf_lt_length.mpr ha
  have hlt2 : l.indexOf b < l.length := List.indexOf_lt_length.mpr hb
  have h1 : l.get ⟨l.indexOf a, hlt1⟩ = a := by
    have := List.getElem_indexOf hlt1
    simp
  have h2 : l.get ⟨l.indexOf b, hlt2⟩ = b := by
    have := List.getElem_indexOf hlt2
    simp
  rw [← h1, ← h2]
  congr 1
  exact Fin.ext h

lemma orderedLabels_perm (regions : List Segment) :
    (orderedLabels regions).Perm (regions.map Segment.speaker).dedup := by
  unfold orderedLabels
  exact List.perm_insertionSort _ _

/-- The speaker renaming and merge keep the number of distinct speakers:
the display numbering is injective on the labels that occur, and the
merge loop preserves the set of speakers. -/
lemma segMerge_count (regions : List Segment) :
    ((segMerge (regions.map fun r => Segment.mk r.start r.stop
        ((orderedLabels regions).indexOf r.speaker + 1))).map Segment.speaker).dedup.length =
      (orderedLabels regions).length := by
  have hspk : ((regions.map fun r => Segment.mk r.start r.stop
      ((orderedLabels regions).indexOf r.speaker + 1)).map Segment.speaker) =
      (regions.map Segment.speaker).map fun l => (orderedLabels regions).indexOf l + 1 := by
    rw [List.map_map, List.map_map]
    rfl
  rw [← List.card_toFinset]
  have hset : ((segMerge (regions.map fun r => Segment.mk r.start r.stop
      ((orderedLabels regions).indexOf r.speaker + 1))).map Segment.speaker).toFinset =
      ((regions.map fun r => Segment.mk r.start r.stop
        ((orderedLabels regions).indexOf r.speaker + 1)).map Segment.speaker).toFinset := by
    unfold segMerge
    rw [List.map_reverse, List.toFinset_reverse, segFold_speakers]
    simp
  rw [hset, hspk, list_toFinset_map]
  rw [Finset.card_image_of_injOn ?_]
  · rw [List.card_toFinset]
    exact ((orderedLabels_perm regions).length_eq).symm
  · intro a ha b hb hfab
    simp only [Finset.coe_insert, Set.mem_insert_iff, List.coe_toFinset, Set.mem_setOf_eq,
      List.mem_toFinset] at ha hb
    have hmema : a ∈ orderedLabels regions :=
      (orderedLabels_perm regions).mem_iff.mpr (List.mem_dedup.mpr ha)
    have hmemb : b ∈ orderedLabels regions :=
      (orderedLabels_perm regions).mem_iff.mpr (List.mem_dedup.mpr hb)
    simp only at hfab
    exact indexOf_mem_inj hmema hmemb (by omega)

/-- Timing facts carry from the detected speech intervals to the named
regions fed to the merge loop. -/
lemma named_proj (speech : List (ℝ × ℝ)) (labels : List ℕ) (f : ℕ → ℕ) :
    ((labeledRegions speech labels).map fun r =>
      Segment.mk r.start r.stop (f r.speaker)).map (fun s => (s.start, s.stop)) = speech := by
  rw [List.map_map]
  have : ((fun s : Segment => (s.start, s.stop)) ∘ fun r : Segment =>
      Segment.mk r.start r.stop (f r.speaker)) = fun s : Segment => (s.start, s.stop) := by
    funext r
    rfl
  rw [this]
  exact labeledRegions_proj speech labels

lemma named_time_facts (speech : List (ℝ × ℝ)) (labels : List ℕ) (f : ℕ → ℕ)
    (hchain : List.Chain' (fun u v : ℝ × ℝ => u.2 + 0.35 < v.1) speech)
    (hdur : ∀ u ∈ speech, 0.65 ≤ u.2 - u.1) :
    List.Chain' (fun a b : Segment => a.stop + 0.35 < b.start)
        ((labeledRegions speech labels).map fun r => Segment.mk r.start r.stop (f r.speaker)) ∧
      ∀ s ∈ (labeledRegions speech labels).map fun r =>
          Segment.mk r.start r.stop (f r.speaker), s.start < s.stop := by
  have hproj := named_proj speech labels f
  constructor
  · have := hproj ▸ hchain
    rw [List.chain'_map] at this
    exact this
  · intro s hs
    have : (s.start, s.stop) ∈ speech := by
      rw [← hproj]
      exact List.mem_map_of_mem _ hs
    have := hdur _ this
    simp only at this
    linarith

/-- The merge loop of `diarize` keeps segments strictly ordered and
non overlapping with positive duration, given the detector ordering. -/
lemma segMerge_wf (named : List Segment)
    (hchain : List.Chain' (fun a b : Segment => a.stop + 0.35 < b.start) named)
    (hdur : ∀ s ∈ named, s.start < s.stop) :
    List.Pairwise (fun a b : Segment => a.start < b.start ∧ a.stop < b.start)
        (segMerge named) ∧
      ∀ s ∈ segMerge named, s.start < s.stop := by
  have hcomb := chain'_and_forall hchain hdur
  letI : IsTrans Segment (fun a b : Segment =>
      (a.start < a.stop) ∧ (b.start < b.stop) ∧ a.stop + 0.35 < b.start) :=
    ⟨fun a b c hab hbc => ⟨hab.1, hbc.2.1, by
      obtain ⟨ha, hb, hab2⟩ := hab
      obtain ⟨_, hc, hbc2⟩ := hbc
      linarith⟩⟩
  have hpwS := List.chain'_iff_pairwise.mp hcomb
  have hpw : List.Pairwise (fun a b : Segment => a.stop + 0.35 < b.start) named :=
    hpwS.imp fun h => h.2.2
  have h := segFold_wf named [] hpw (fun r hr => hdur r hr) List.chain'_nil
    (by simp) (by simp)
  have hdm : ∀ s ∈ segMerge named, s.start < s.stop := by
    intro s hs
    unfold segMerge at hs
    rw [List.mem_reverse] at hs
    exact h.2 s hs
  refine ⟨?_, hdm⟩
  have hchain2 : List.Chain' (fun a b : Segment => a.stop < b.start) (segMerge named) := by
    unfold segMerge
    rw [List.chain'_reverse]
    exact h.1
  have hcomb2 := chain'_and_forall hchain2 hdm
  letI : IsTrans Segment (fun a b : Segment =>
      (a.start < a.stop) ∧ (b.start < b.stop) ∧ a.stop < b.start) :=
    ⟨fun a b c hab hbc => ⟨hab.1, hbc.2.1, by
      obtain ⟨ha, hb, hab2⟩ := hab
      obtain ⟨_, hc, hbc2⟩ := hbc
      linarith⟩⟩
  have := List.chain'_iff_pairwise.mp hcomb2
  exact this.imp fun h => ⟨by
      obtain ⟨ha, _, h2⟩ := h
      linarith, h.2.2⟩

/-! ## Claims C1, C2 and C10 about `diarize` -/

lemma diarizeAssemble_wellformed (speech : List (ℝ × ℝ)) (labels : List ℕ)
    (hchain : List.Chain' (fun u v : ℝ × ℝ => u.2 + 0.35 < v.1) speech)
    (hdur : ∀ u ∈ speech, 0.65 ≤ u.2 - u.1) :
    (diarizeAssemble speech labels).num_speakers =
        ((diarizeAssemble speech labels).segments.map Segment.speaker).dedup.length
      ∧ List.Pairwise (fun a b : Segment => a.start < b.start ∧ a.stop < b.start)
          (diarizeAssemble speech labels).segments
      ∧ (diarizeAssemble speech labels).segments.Forall fun s => s.start < s.stop := by
  simp only [diarizeAssemble]
  have hn := named_time_facts speech labels
    (fun l => (orderedLabels (labeledRegions speech labels)).indexOf l + 1) hchain hdur
  refine ⟨(segMerge_count _).symm, ?_, ?_⟩
  · exact (segMerge_wf _ hn.1 hn.2).1
  · rw [List.forall_iff_forall_mem]
    exact (segMerge_wf _ hn.1 hn.2).2

lemma diarizeAssemble_sep (speech : List (ℝ × ℝ)) (labels : List ℕ) :
    List.Chain' (fun a b : Segment => ¬(a.speaker = b.speaker ∧ b.start - a.stop ≤ 0.45))
      (diarizeAssemble speech labels).segments := by
  simp only [diarizeAssemble, segMerge]
  rw [List.chain'_reverse]
  exact segFold_sep _ [] List.chain'_nil

lemma diarizeAssemble_times (speech : List (ℝ × ℝ)) (labels : List ℕ) :
    ∀ s ∈ (diarizeAssemble speech labels).segments,
      (∃ p ∈ speech, s.start = p.1) ∧ ∃ p ∈ speech, s.stop = p.2 := by
  intro s hs
  simp only [diarizeAssemble, segMerge] at hs
  rw [List.mem_reverse] at hs
  refine segFold_times
    (fun x => ∃ p ∈ speech, x = p.1)
    (fun x => ∃ p ∈ speech, x = p.2)
    _ [] ?_ (by simp) s hs
  intro r hr
  have hmem : (r.start, r.stop) ∈ speech := by
    rw [← named_proj speech labels
      (fun l => (orderedLabels (labeledRegions speech labels)).indexOf l + 1)]
    exact List.mem_map_of_mem _ hr
  exact ⟨⟨(r.start, r.stop), hmem, rfl⟩, ⟨(r.start, r.stop), hmem, rfl⟩⟩

/-- Claim C1: for every input, `num_speakers` equals the number of
distinct speaker names appearing in the output segments, and the
segments are sorted by start time, pairwise non overlapping
(`a.stop < b.start` for every earlier segment `a` and later `b`), and
every segment satisfies `start < stop`. -/
theorem diarize_segments_spec (rngOf : ℕ → ℕ → ℕ) (samples : List ℝ) (mn mx : ℕ) :
    (diarize rngOf samples mn mx).num_speakers =
        ((diarize rngOf samples mn mx).segments.map Segment.speaker).dedup.length
      ∧ List.Pairwise (fun a b : Segment => a.start < b.start ∧ a.stop < b.start)
          (diarize rngOf samples mn mx).segments
      ∧ (diarize rngOf samples mn mx).segments.Forall fun s => s.start < s.stop := by
  have hdet := detect_spec samples
  simp only [diarize]
  split
  · simp
  · split
    · simp
    · split
      · simp
      · exact diarizeAssemble_wellformed _ _ hdet.1 hdet.2

/-- Claim C2: no two consecutive output segments simultaneously share
the same speaker name and sit within the 0.45 s merge gap: any such pair
would have been merged by the assembly loop. -/
theorem diarize_merge_exhaustive (rngOf : ℕ → ℕ → ℕ) (samples : List ℝ) (mn mx : ℕ) :
    List.Chain' (fun a b : Segment => ¬(a.speaker = b.speaker ∧ b.start - a.stop ≤ 0.45))
      (diarize rngOf samples mn mx).segments := by
  simp only [diarize]
  split
  · simp
  · split
    · simp
    · split
      · simp
      · exact diarizeAssemble_sep _ _

/-- Claim C10: clustering and label stabilization never alter timing:
every output segment starts at the start of some detected speech
interval and ends at the end of some detected speech interval. -/
theorem diarize_times_spec (rngOf : ℕ → ℕ → ℕ) (samples : List ℝ) (mn mx : ℕ) :
    (diarize rngOf samples mn mx).segments.Forall fun s =>
      (∃ p ∈ detect_speech_regions samples 16000, s.start = p.1) ∧
        ∃ p ∈ detect_speech_regions samples 16000, s.stop = p.2 := by
  simp only [diarize]
  split
  · simp
  · split
    · simp
    · split
      · simp
      · rw [List.forall_iff_forall_mem]
        exact diarizeAssemble_times _ _

/-! ## Empty results (claim C3) -/

lemma sumsq_replicate_zero (n : ℕ) : sumsq (List.replicate n (0 : ℝ)) = 0 := by
  induction n with
  | zero => rfl
  | succ n ih => rw [List.replicate_succ, sumsq_cons, ih]; ring

lemma map_getD_replicate (n : ℕ) :
    (List.range n).map (fun j => (List.replicate n (0 : ℝ)).getD j 0) =
      List.replicate n (0 : ℝ) := by
  rw [List.map_congr_left (fun j hj => by
    rw [getD_replicate, if_pos (List.mem_range.mp hj)])]
  rw [List.map_const', List.length_range]

lemma frame_audio_single_zero : frame_audio [(0 : ℝ)] 480 160 = [List.replicate 480 (0 : ℝ)] := by
  simp only [frame_audio]
  rw [if_neg (by simp)]
  rw [if_pos (by simp)]
  have hpad : ([(0 : ℝ)] ++ List.replicate (480 - ([(0 : ℝ)]).length) 0) =
      List.replicate 480 (0 : ℝ) := by
    rw [show (480 - ([(0 : ℝ)]).length) = 479 by simp, List.singleton_append,
      ← List.replicate_succ]
  rw [hpad, List.length_replicate]
  norm_num

lemma percentile_single (v : ℝ) : percentile [v] 20 = v := by
  simp only [percentile]
  have hsort : @List.insertionSort ℝ (fun a b => a ≤ b)
      (fun a b => Real.decidableLE a b) [v] = [v] := rfl
  rw [hsort]
  norm_num

lemma sqrt_tiny : Real.sqrt 1e-10 = 1e-5 := by
  rw [show (1e-10 : ℝ) = (1e-5) ^ 2 by norm_num]
  exact Real.sqrt_sq (by norm_num)

lemma detect_single_zero : detect_speech_regions [(0 : ℝ)] 16000 = [] := by
  have hfs : ((0.03 : ℚ) * ((16000 : ℕ) : ℚ)).floor.toNat = 480 := by norm_num; decide
  have hhs : ((0.01 : ℚ) * ((16000 : ℕ) : ℚ)).floor.toNat = 160 := by norm_num; decide
  simp only [detect_speech_regions, hfs, hhs, frame_audio_single_zero]
  rw [if_neg (by norm_num)]
  have hrms : Real.sqrt (sumsq (List.replicate 480 (0 : ℝ)) /
      ((List.replicate 480 (0 : ℝ)).length : ℝ) + 1e-10) = Real.sqrt 1e-10 := by
    rw [sumsq_replicate_zero, List.length_replicate]
    norm_num
  simp only [List.map_cons, List.map_nil, hrms, percentile_single, sqrt_tiny]
  have hmax : max (2.2 * (1e-5 : ℝ)) 0.015 = 0.015 := max_eq_right (by norm_num)
  rw [hmax]
  have hdec : (@decide ((0.015 : ℝ) < 1e-5) (Real.decidableLT 0.015 1e-5)) = false :=
    decide_eq_false (by norm_num)
  rw [hdec]
  have hhole : ((0.12 : ℚ) / (((160 : ℕ) : ℚ) / ((16000 : ℕ) : ℚ))).floor.toNat = 12 := by
    norm_num
    decide
  rw [hhole]
  have hfill : fill_holes [false] 12 = [false] := by decide
  rw [hfill]
  rfl

/-- Claim C3: an empty sample buffer yields the defined empty result, and
likewise any input on which speech detection yields no intervals. -/
theorem diarize_empty_spec :
    (∀ (rngOf : ℕ → ℕ → ℕ) (mn mx : ℕ), diarize rngOf [] mn mx = ⟨[], 0⟩)
      ∧ ∀ (rngOf : ℕ → ℕ → ℕ) (samples : List ℝ) (mn mx : ℕ),
          detect_speech_regions samples 16000 = [] →
            diarize rngOf samples mn mx = ⟨[], 0⟩ := by
  constructor
  · intro rngOf mn mx
    simp [diarize]
  · intro rngOf samples mn mx hdet
    simp only [diarize]
    split
    · rfl
    · rw [hdet]
      rfl

/-- Claim C3 witness: the one sample buffer `[0]` is non empty yet fully
below the activity threshold, so it exercises the second branch: speech
detection returns no intervals and `diarize` returns the empty result. -/
theorem diarize_empty_spec_witness :
    detect_speech_regions [(0 : ℝ)] 16000 = []
      ∧ diarize (fun _ _ => 0) [(0 : ℝ)] 1 4 = ⟨[], 0⟩ :=
  ⟨detect_single_zero,
    diarize_empty_spec.2 (fun _ _ => 0) [(0 : ℝ)] 1 4 detect_single_zero⟩

/-! ## Determinism: the output depends only on the streams at the three
fixed seeds (claim C9) -/

lemma kmeansBest_congr (rng1 rng2 : ℕ → ℕ → ℕ) (x : List (List ℝ)) (k : ℕ)
    (h7 : rng1 7 = rng2 7) (h17 : rng1 17 = rng2 17) (h31 : rng1 31 = rng2 31) :
    kmeansBest rng1 x k = kmeansBest rng2 x k := by
  simp only [kmeansBest, kmeansBestStep, List.foldl_cons, List.foldl_nil]
  rw [h7, h17, h31]

lemma choose_speaker_count_congr (rng1 rng2 : ℕ → ℕ → ℕ) (x : List (List ℝ))
    (mn mx : ℕ) (h7 : rng1 7 = rng2 7) (h17 : rng1 17 = rng2 17) (h31 : rng1 31 = rng2 31) :
    choose_speaker_count rng1 x mn mx = choose_speaker_count rng2 x mn mx := by
  have hstep : chooseStep rng1 x = chooseStep rng2 x := by
    funext acc k
    simp only [chooseStep]
    rw [kmeansBest_congr rng1 rng2 x k h7 h17 h31]
  simp only [choose_speaker_count]
  rw [hstep]

lemma diarizeLabels_congr (rng1 rng2 : ℕ → ℕ → ℕ) (x : List (List ℝ)) (mn mx : ℕ)
    (h7 : rng1 7 = rng2 7) (h17 : rng1 17 = rng2 17) (h31 : rng1 31 = rng2 31) :
    diarizeLabels rng1 x mn mx = diarizeLabels rng2 x mn mx := by
  simp only [diarizeLabels]
  rw [choose_speaker_count_congr rng1 rng2 x mn mx h7 h17 h31,
    kmeansBest_congr rng1 rng2 x _ h7 h17 h31]

/-- Claim C9: `diarize` is deterministic in the sense that its output
depends on the seeded generator only through the draw streams of the
three fixed seeds 7, 17 and 31: two generator families that agree on
those seeds produce identical output on every input and configuration.
No other seed and no global state is ever consulted. -/
theorem diarize_deterministic (rng1 rng2 : ℕ → ℕ → ℕ) (samples : List ℝ) (mn mx : ℕ)
    (h7 : rng1 7 = rng2 7) (h17 : rng1 17 = rng2 17) (h31 : rng1 31 = rng2 31) :
    diarize rng1 samples mn mx = diarize rng2 samples mn mx := by
  simp only [diarize]
  rw [diarizeLabels_congr rng1 rng2 _ mn mx h7 h17 h31]

/-- Claim C9 witness: two draw stream families that agree on seeds 7, 17
and 31 but differ on every other seed give identical results on a
concrete input. -/
theorem diarize_deterministic_witness :
    diarize (fun s t => s + t) [(0 : ℝ)] 1 4 =
      diarize (fun s t => if s ≤ 31 then s + t else 0) [(0 : ℝ)] 1 4 :=
  diarize_deterministic (fun s t => s + t) (fun s t => if s ≤ 31 then s + t else 0)
    [(0 : ℝ)] 1 4 (by funext t; norm_num) (by funext t; norm_num) (by funext t; norm_num)

/-! ## Silhouette score versus the claimed formula (claim C6) -/

lemma dot_self (v : List ℝ) : dot v v = sumsq v := by
  induction v with
  | nil => rfl
  | cons a t ih =>
    simp only [dot, sumsq, List.zipWith_cons_cons, List.map_cons, List.sum_cons] at *
    rw [ih]

lemma pdist_self (v : List ℝ) : pdist v v = 0 := by
  unfold pdist
  rw [dot_self]
  have h : sumsq v + sumsq v - 2 * sumsq v = 0 := by ring
  rw [h, max_self, Real.sqrt_zero]

lemma pdist_one_dim (a b : ℝ) : pdist [a] [b] = |a - b| := by
  unfold pdist
  have h : sumsq [a] + sumsq [b] - 2 * dot [a] [b] = (a - b) ^ 2 := by
    simp [sumsq, dot]
    ring
  rw [h, max_eq_left (sq_nonneg _), Real.sqrt_sq_eq_abs]

/-- Modelled from the spec: the silhouette aggregate exactly as claim C6
words it — the mean over points of `(b - a) / max(a, b)` where `a` is
the mean distance to the other members of the own cluster, `b` the
minimum over other clusters of the mean distance to that cluster, and
every point whose `a` or `b` is undefined (for instance a point in a
singleton cluster) contributes 0 to the mean. -/
noncomputable def silhouetteClaim (x : List (List ℝ)) (labels : List ℕ) : ℝ :=
  let n := x.length
  let d : ℕ → ℕ → ℝ := fun i j => pdist (x.getD i []) (x.getD j [])
  (∑ i ∈ Finset.range n,
    (let li := labels.getD i 0
     let own := (Finset.range n).filter fun j => j ≠ i ∧ labels.getD j 0 = li
     if own.Nonempty then
       let a := (∑ j ∈ own, d i j) / (own.card : ℝ)
       match ((labels.dedup.filter fun c => c ≠ li).map fun c =>
           (∑ j ∈ (Finset.range n).filter fun j => labels.getD j 0 = c, d i j) /
             (((Finset.range n).filter fun j => labels.getD j 0 = c).card : ℝ)).min? with
       | none => (0 : ℝ)
       | some b => (b - a) / max a b
     else 0)) / (n : ℝ)

/-- The per point score of the amended formula: as the claim, except a
point in a singleton cluster takes `a = 0` (and so scores
`(b - 0) / max(0, b)` rather than contributing 0), and the score is 0
when `b` is undefined or `max(a, b) ≤ 1e-12`. -/
noncomputable def silhouetteAmendedPoint (x : List (List ℝ)) (labels : List ℕ) (i : ℕ) : ℝ :=
  let n := x.length
  let d : ℕ → ℕ → ℝ := fun i j => pdist (x.getD i []) (x.getD j [])
  let li := labels.getD i 0
  let own := (Finset.range n).filter fun j => j ≠ i ∧ labels.getD j 0 = li
  let a : ℝ := if own.Nonempty then (∑ j ∈ own, d i j) / (own.card : ℝ) else 0
  match ((labels.dedup.filter fun c => c ≠ li).map fun c =>
      (∑ j ∈ (Finset.range n).filter fun j => labels.getD j 0 = c, d i j) /
        (((Finset.range n).filter fun j => labels.getD j 0 = c).card : ℝ)).min? with
  | none => (0 : ℝ)
  | some b => if max a b ≤ 1e-12 then 0 else (b - a) / max a b

/-- The amended silhouette formula: the mean of the amended per point
scores, with `-1` outside the 2 ≤ clusters < n range as in the source
guard. -/
noncomputable def silhouetteAmended (x : List (List ℝ)) (labels : List ℕ) : ℝ :=
  let n := x.length
  if labels.dedup.length ≤ 1 ∨ n ≤ labels.dedup.length then -1
  else (∑ i ∈ Finset.range n, silhouetteAmendedPoint x labels i) / (n : ℝ)

lemma silhouettePoint_eq_amended (x : List (List ℝ)) (labels : List ℕ) (i : ℕ)
    (hi : i < x.length) :
    silhouettePoint x labels i = silhouetteAmendedPoint x labels i := by
  simp only [silhouettePoint, silhouetteAmendedPoint]
  have hsame : (Finset.range x.length).filter
      (fun j => labels.getD j 0 = labels.getD i 0) =
      insert i ((Finset.range x.length).filter
        (fun j => j ≠ i ∧ labels.getD j 0 = labels.getD i 0)) := by
    ext j
    simp only [Finset.mem_filter, Finset.mem_insert, Finset.mem_range]
    constructor
    · rintro ⟨hj, hl⟩
      by_cases hji : j = i
      · exact Or.inl hji
      · exact Or.inr ⟨hj, hji, hl⟩
    · rintro (hji | ⟨hj, hji, hl⟩)
      · subst hji
        exact ⟨hi, rfl⟩
      · exact ⟨hj, hl⟩
  have hnot : i ∉ (Finset.range x.length).filter
      (fun j => j ≠ i ∧ labels.getD j 0 = labels.getD i 0) := by
    simp
  have hcard : ((Finset.range x.length).filter
      (fun j => labels.getD j 0 = labels.getD i 0)).card =
      ((Finset.range x.length).filter
        (fun j => j ≠ i ∧ labels.getD j 0 = labels.getD i 0)).card + 1 := by
    rw [hsame, Finset.card_insert_of_not_mem hnot]
  have hsum : (∑ j ∈ (Finset.range x.length).filter
      (fun j => labels.getD j 0 = labels.getD i 0),
        pdist (x.getD i []) (x.getD j [])) =
      ∑ j ∈ (Finset.range x.length).filter
        (fun j => j ≠ i ∧ labels.getD j 0 = labels.getD i 0),
          pdist (x.getD i []) (x.getD j []) := by
    rw [hsame, Finset.sum_insert hnot, pdist_self, zero_add]
  have ha : (if ((Finset.range x.length).filter
        (fun j => labels.getD j 0 = labels.getD i 0)).card ≤ 1 then (0 : ℝ)
      else (∑ j ∈ (Finset.range x.length).filter
          (fun j => labels.getD j 0 = labels.getD i 0),
            pdist (x.getD i []) (x.getD j [])) /
        ((((Finset.range x.length).filter
          (fun j => labels.getD j 0 = labels.getD i 0)).card : ℝ) - 1)) =
      (if ((Finset.range x.length).filter
          (fun j => j ≠ i ∧ labels.getD j 0 = labels.getD i 0)).Nonempty then
        (∑ j ∈ (Finset.range x.length).filter
            (fun j => j ≠ i ∧ labels.getD j 0 = labels.getD i 0),
              pdist (x.getD i []) (x.getD j [])) /
          ((((Finset.range x.length).filter
            (fun j => j ≠ i ∧ labels.getD j 0 = labels.getD i 0)).card : ℝ))
      else 0) := by
    by_cases hne : ((Finset.range x.length).filter
        (fun j => j ≠ i ∧ labels.getD j 0 = labels.getD i 0)).Nonempty
    · rw [if_pos hne]
      have hc1 : 1 ≤ ((Finset.range x.length).filter
          (fun j => j ≠ i ∧ labels.getD j 0 = labels.getD i 0)).card :=
        Finset.Nonempty.card_pos hne
      rw [if_neg (by omega)]
      rw [hsum, hcard]
      push_cast
      ring_nf
    · rw [if_neg hne]
      rw [Finset.not_nonempty_iff_eq_empty] at hne
      rw [if_pos (by rw [hcard, hne]; simp)]
  rw [ha]

/-- Claim C6 (amended): `silhouette_score` computes the claimed mean of
`(b - a) / max(a, b)` with `a` the mean distance to the other members of
the own cluster and `b` the minimum mean distance to another cluster,
except that a point in a singleton cluster takes `a = 0` (so it scores
`(b - 0) / max(0, b)`, which is 1 whenever `b > 1e-12`, rather than
contributing 0), and a score is 0 when `b` is undefined or
`max(a, b) ≤ 1e-12`; outside the range of 2 to `n - 1` distinct
clusters the function returns `-1`. -/
theorem silhouette_score_amended (x : List (List ℝ)) (labels : List ℕ) :
    silhouette_score x labels = silhouetteAmended x labels := by
  simp only [silhouette_score, silhouetteAmended]
  split
  · rfl
  · rename_i hguard
    have hn : 0 < x.length := by
      rcases not_or.mp hguard with ⟨h1, h2⟩
      omega
    have hmap : (List.range x.length).map (silhouettePoint x labels) =
        (List.range x.length).map (silhouetteAmendedPoint x labels) :=
      List.map_congr_left fun i hi =>
        silhouettePoint_eq_amended x labels i (List.mem_range.mp hi)
    rw [hmap]
    rw [if_neg (by
      simp only [List.isEmpty_iff, List.map_eq_nil_iff, List.range_eq_nil]
      omega)]
    have hsum : ((List.range x.length).map (silhouetteAmendedPoint x labels)).sum =
        ∑ i ∈ Finset.range x.length, silhouetteAmendedPoint x labels i := rfl
    rw [hsum, List.length_map, List.length_range]

lemma silhouette_cex_filters :
    (Finset.filter (fun j => ([0, 0, 1] : List ℕ)[j]?.getD 0 = 0) (Finset.range 3) =
        ({0, 1} : Finset ℕ))
      ∧ (Finset.filter (fun j => ([0, 0, 1] : List ℕ)[j]?.getD 0 = 1) (Finset.range 3) =
        ({2} : Finset ℕ))
      ∧ ([0, 0, 1] : List ℕ).dedup = [0, 1] := by
  refine ⟨by decide, by decide, by decide⟩

lemma silhouette_cex_p0 :
    silhouettePoint [[0], [1], [2]] [0, 0, 1] 0 = 1 / 2 := by
  obtain ⟨hg0, hg1, hd⟩ := silhouette_cex_filters
  simp only [silhouettePoint]
  norm_num [hd]
  rw [hg0, hg1]
  rw [Finset.sum_pair (by norm_num : (0 : ℕ) ≠ 1), Finset.sum_singleton]
  norm_num [pdist_self, pdist_one_dim]

lemma silhouette_cex_p1 :
    silhouettePoint [[0], [1], [2]] [0, 0, 1] 1 = 0 := by
  obtain ⟨hg0, hg1, hd⟩ := silhouette_cex_filters
  simp only [silhouettePoint]
  norm_num [hd]
  rw [hg0, hg1]
  rw [Finset.sum_pair (by norm_num : (0 : ℕ) ≠ 1), Finset.sum_singleton]
  norm_num [pdist_self, pdist_one_dim]

lemma silhouette_cex_p2 :
    silhouettePoint [[0], [1], [2]] [0, 0, 1] 2 = 1 := by
  obtain ⟨hg0, hg1, hd⟩ := silhouette_cex_filters
  simp only [silhouettePoint]
  norm_num [hd]
  rw [hg0, hg1]
  rw [Finset.sum_pair (by norm_num : (0 : ℕ) ≠ 1), Finset.sum_singleton]
  norm_num [pdist_self, pdist_one_dim]

/-- Claim C6 counterexample: on the three point matrix `[[0], [1], [2]]`
with labeling `[0, 0, 1]` (2 distinct clusters among 3 points, inside
the claimed range), the code returns 1/2 while the claimed formula gives
1/6: the singleton point 2 scores 1 in the code (its `a` is set to 0, so
it scores `(b - 0) / max(0, b) = 1`), whereas the claim demands that a
point with undefined `a` contribute 0. -/
theorem silhouette_score_cex :
    ([0, 0, 1] : List ℕ).dedup.length = 2
      ∧ ([[0], [1], [2]] : List (List ℝ)).length = 3
      ∧ silhouette_score [[0], [1], [2]] [0, 0, 1] = 1 / 2
      ∧ silhouetteClaim [[0], [1], [2]] [0, 0, 1] = 1 / 6
      ∧ silhouette_score [[0], [1], [2]] [0, 0, 1] ≠
          silhouetteClaim [[0], [1], [2]] [0, 0, 1] := by
  obtain ⟨hg0, hg1, hd⟩ := silhouette_cex_filters
  have hscore : silhouette_score [[0], [1], [2]] [0, 0, 1] = 1 / 2 := by
    simp only [silhouette_score]
    rw [if_neg (by norm_num [hd])]
    rw [show List.range ([[0], [1], [2]] : List (List ℝ)).length = [0, 1, 2] from rfl]
    simp only [List.map_cons, List.map_nil, silhouette_cex_p0, silhouette_cex_p1,
      silhouette_cex_p2]
    norm_num
  have hclaim : silhouetteClaim [[0], [1], [2]] [0, 0, 1] = 1 / 6 := by
    simp only [silhouetteClaim]
    rw [show (([[0], [1], [2]] : List (List ℝ)).length) = 3 from rfl]
    rw [Finset.sum_range_succ, Finset.sum_range_succ, Finset.sum_range_one]
    norm_num [hd]
    rw [show (Finset.filter (fun j => ¬ j = 0 ∧ ([0, 0, 1] : List ℕ)[j]?.getD 0 = 0)
        (Finset.range 3)) = ({1} : Finset ℕ) from by decide]
    rw [show (Finset.filter (fun j => ¬ j = 1 ∧ ([0, 0, 1] : List ℕ)[j]?.getD 0 = 0)
        (Finset.range 3)) = ({0} : Finset ℕ) from by decide]
    rw [show (Finset.filter (fun j => ¬ j = 2 ∧ ([0, 0, 1] : List ℕ)[j]?.getD 0 = 1)
        (Finset.range 3)) = (∅ : Finset ℕ) from by decide]
    rw [hg0, hg1]
    rw [Finset.sum_pair (by norm_num : (0 : ℕ) ≠ 1)]
    norm_num [pdist_self, pdist_one_dim]
  refine ⟨by decide, rfl, hscore, hclaim, ?_⟩
  rw [hscore, hclaim]
  norm_num

end SpeakerDiarize
